import Mathlib

set_option linter.unusedSectionVars false

/-!
Verification of the `distance` library (`distance/distance.py`,
`distance/__init__.py`): Hamming distance, Levenshtein distance,
Jaccard/Sørensen coefficients, the bounded edit-distance search
`fast_comp`/`ifast_comp`, and longest common substrings.

Python sequences are modelled as `List α` with decidable equality,
Python `int` as `ℕ`/`ℤ`, Python `float` as `ℚ`, raised exceptions as
`Except String`.  Cursor indices into fixed sequences are modelled by
structural recursion on the corresponding list suffixes.
-/

namespace Distance

variable {α : Type _} [DecidableEq α]

/-! ## Hamming distance (`hamming`, distance.py lines 25-46) -/

/-- Python values returned by the library: `int` or `float`. -/
inductive PyNum where
  | int (n : ℕ)
  | float (q : ℚ)
deriving DecidableEq, Repr

/-- `hamming(seq1, seq2, normalized=False)`.
`sum(c1 != c2 for c1, c2 in zip(seq1, seq2))` counts the differing
pairs of `zip`; the `ValueError` on a length mismatch is modelled by
`Except.error`. -/
def hamming (seq1 seq2 : List α) (normalized : Bool := false) :
    Except String PyNum :=
  let L := seq1.length
  if L ≠ seq2.length then
    .error "expected two strings of the same length"
  else if L = 0 then
    .ok (if normalized then .float 0 else .int 0)
  else
    let dist := ((seq1.zip seq2).filter fun p => p.1 ≠ p.2).length
    if normalized then .ok (.float ((dist : ℚ) / (L : ℚ)))
    else .ok (.int dist)

/-! ## Jaccard and Sørensen (distance.py lines 91-108)

`set(seq)` is modelled by `List.toFinset`; Python's
`ZeroDivisionError` on `x / 0.0` is modelled by `Except.error`. -/

/-- `jaccard(seq1, seq2) = 1 - len(set1 & set2) / float(len(set1 | set2))`. -/
def jaccard (seq1 seq2 : List α) : Except String ℚ :=
  let set1 := seq1.toFinset
  let set2 := seq2.toFinset
  if (set1 ∪ set2).card = 0 then .error "ZeroDivisionError"
  else .ok (1 - ((set1 ∩ set2).card : ℚ) / ((set1 ∪ set2).card : ℚ))

/-- `sorensen(seq1, seq2) = 1 - 2 * len(set1 & set2) / float(len(set1) + len(set2))`. -/
def sorensen (seq1 seq2 : List α) : Except String ℚ :=
  let set1 := seq1.toFinset
  let set2 := seq2.toFinset
  if set1.card + set2.card = 0 then .error "ZeroDivisionError"
  else .ok (1 - (2 * ((set1 ∩ set2).card : ℚ)) / ((set1.card : ℚ) + (set2.card : ℚ)))

/-! ## Levenshtein distance (`levenshtein`, distance.py lines 49-88)

The claims are about the `normalized=False` path, which returns the
integer `column[len2]`; `normalized=True` only divides the same value
by `max(len1, len2)`.

The inner `for y` loop walks the column together with `seq2`; the
value read at index `y` (`old = column[y]`) is paired with the
character `seq2[y-1]`, so one pass is a recursion over
`column.tail.zip seq2`.  Entries of the column beyond index
`len2` are never read nor written, so the rolling column is kept at
length `len2 + 1`. -/

/-- One pass of the inner loop (`for y in range(1, len2 + 1)`):
`last` and `left` carry `last` and `column[y-1]`, each list element is
`(old, seq2[y-1])`, and `cost = int(seq1[x-1] != seq2[y-1])`. -/
def levRowAux (c : α) : ℕ → ℕ → List (ℕ × α) → List ℕ
  | _, _, [] => []
  | last, left, (old, yc) :: rest =>
      let cost : ℕ := if c ≠ yc then 1 else 0
      let v := min (old + 1) (min (left + 1) (last + cost))
      v :: levRowAux c old v rest

/-- The outer loop (`for x in range(1, len1 + 1)`): each step sets
`column[0] = x`, `last = x - 1 = column.headD 0`, and rewrites the rest
of the column; at the end the result is `column[len2]`, the last kept
entry. -/
def levLoop (s2 : List α) : List α → ℕ → List ℕ → ℕ
  | [], _, col => col.getLastD 0
  | ch :: rest, x, col =>
      levLoop s2 rest (x + 1) (x :: levRowAux ch (col.headD 0) x (col.tail.zip s2))

/-- `levenshtein(seq1, seq2)` with `normalized=False`. -/
def levenshtein (seq1 seq2 : List α) : ℕ :=
  if seq1 = seq2 then 0
  else if seq1.length = 0 then seq2.length
  else if seq2.length = 0 then seq1.length
  else
    let s1 := if seq1.length < seq2.length then seq2 else seq1
    let s2 := if seq1.length < seq2.length then seq1 else seq2
    levLoop s2 s1 1 (List.range (s1.length + 1))

/-! ## The bounded edit engine (`fast_comp`, distance.py lines 111-188)

The edit-operation alphabet `replace, insert, delete = "r", "i", "d"`. -/

inductive Op where
  | r | i | d
deriving DecidableEq, Repr

/-- The `while (i < L1) and (j < L2)` loop of `fast_comp`, for one
model.  The cursors `i`, `j` into `str1`, `str2` are modelled by the
remaining suffixes; `rem` is `model[c:]`, the not-yet-consumed model
operations, and `c` the running cost.

* equal heads: `i, j = i+1, j+1`;
* on a mismatch `c` is incremented and if `2 < c` the walk breaks,
  which makes the model fail (`if 2 < c: continue`), modelled by `none`;
* the transposition test `i < L1 - 1 and j < L2 - 1 and
  str1[i+1] == str2[j] and str1[i] == str2[j+1]` reads the heads of the
  remaining tails, and on success advances both cursors by two; since
  the model is indexed by the cost counter (`cmd = model[c-1]`) and `c`
  was incremented without reading a slot, the not-yet-consumed part
  `model[c:]` loses its first element: `rem` becomes `rem.tail`;
* otherwise `cmd = model[c-1]` consumes one model slot (the slot is
  always in range, since `c ≤ 2` and the models have length 2; the
  impossible out-of-range case falls through to the `replace` branch of
  the `if`/`elif`/`else`);
* on loop exit, leftover elements of `str1` (resp. `str2`) must be
  absorbed by `delete` (resp. `insert`) operations counted in
  `model[c:].count(...)`, else the model fails. -/
def walk (t : Bool) (ld : ℕ) : List α → List α → List Op → ℕ → Option ℕ
  | [], [], _, c => some c
  | x :: a, [], rem, c =>
      if (x :: a).length ≤ rem.count Op.d then some (c + (x :: a).length) else none
  | [], y :: b, rem, c =>
      if (y :: b).length ≤ rem.count Op.i then some (c + (y :: b).length) else none
  | x :: a, y :: b, rem, c =>
      if x = y then walk t ld a b rem c
      else if 2 < c + 1 then none
      else if t ∧ ld ≠ 2 ∧ a.head? = some y ∧ b.head? = some x then
        walk t ld a.tail b.tail rem.tail (c + 1)
      else
        match rem with
        | Op.d :: rem' => walk t ld a (y :: b) rem' (c + 1)
        | Op.i :: rem' => walk t ld (x :: a) b rem' (c + 1)
        | Op.r :: rem' => walk t ld a b rem' (c + 1)
        | [] => walk t ld a b [] (c + 1)
  termination_by a b => a.length + b.length
  decreasing_by
    all_goals simp_wf
    all_goals omega

/-- The model sets: `ldiff == 0` tries `("id", "di", "rr")`,
`ldiff == 1` tries `("dr", "rd")`, `ldiff == 2` tries `("dd",)`. -/
def modelsFor (ld : ℕ) : List (List Op) :=
  if ld = 0 then [[.i, .d], [.d, .i], [.r, .r]]
  else if ld = 1 then [[.d, .r], [.r, .d]]
  else [[.d, .d]]

/-- `res = 3; for model in models: ...; if c < res: res = c`. -/
def runModels (t : Bool) (ld : ℕ) (s1 s2 : List α) (models : List (List Op)) : ℕ :=
  models.foldl
    (fun res m =>
      match walk t ld s1 s2 m 0 with
      | some c => if c < res then c else res
      | none => res) 3

/-- `fast_comp(str1, str2, transpositions)`.  After the conditional
swap `L1 ≥ L2`; `ldiff = L1 - L2` selects the models, `ldiff > 2`
returns `-1` immediately; `res == 3` at the end becomes `-1`. -/
def fast_comp (str1 str2 : List α) (transpositions : Bool := false) : ℤ :=
  let s1 := if str1.length < str2.length then str2 else str1
  let s2 := if str1.length < str2.length then str1 else str2
  let ld := s1.length - s2.length
  if 2 < ld then -1
  else
    let res := runModels transpositions ld s1 s2 (modelsFor ld)
    if res = 3 then -1 else (res : ℤ)

/-! ## `ifast_comp` (distance.py lines 191-219)

The generator is modelled as the list of its yields, in order. -/

/-- `ifast_comp(str1, strs, transpositions)`:
`for str2 in strs: dist = fast_comp(...); if dist != -1: yield dist, str2`. -/
def ifast_comp (str1 : List α) (strs : List (List α))
    (transpositions : Bool := false) : List (ℤ × List α) :=
  match strs with
  | [] => []
  | str2 :: rest =>
      let dist := fast_comp str1 str2 transpositions
      if dist ≠ -1 then (dist, str2) :: ifast_comp str1 rest transpositions
      else ifast_comp str1 rest transpositions

/-! ## `quick_levenshtein` and `iquick_levenshtein` (`__init__.py`) -/

/-- `quick_levenshtein(str1, str2) = fast_comp(str1, str2, transpositions=False)`. -/
def quick_levenshtein (str1 str2 : List α) : ℤ :=
  fast_comp str1 str2 false

/-- The local names in scope in the body of
`iquick_levenshtein(str1, strs)`: just its two parameters.  Values are
tagged by their Python type (a string or a list of strings). -/
inductive PyVal (α : Type _) where
  | str (s : List α)
  | strList (l : List (List α))

/-- `iquick_levenshtein(str1, strs) = ifast_comp(str1, str2,
transpositions=False)`.  The body's reference to `str2` is resolved in
the local scope `{str1, strs}`; the lookup fails, which Python reports
as a `NameError` as soon as the arguments of `ifast_comp` are
evaluated, so the call yields nothing. -/
def iquick_levenshtein (str1 : List α) (strs : List (List α)) :
    Except String (List (ℤ × List α)) :=
  let scope : List (String × PyVal α) := [("str1", .str str1), ("strs", .strList strs)]
  match scope.lookup "str2" with
  | none => .error "NameError: name 'str2' is not defined"
  | some (.str s) => .ok (ifast_comp str1 [s] false)
  | some (.strList l) => .ok (ifast_comp str1 l false)

/-! ## Longest common substrings (`lcsubstrings`, distance.py lines 222-262)

The rolling row `column` (initialised to `array('I', range(L2))`) is
walked together with `seq2` by the inner `for j` loop; `last` carries
the value `column[j]` held before the previous overwrite.  The state
`(ms, mlen, last)` is threaded through both loops exactly as in the
source (in particular `last` is carried across row boundaries). -/

/-- The inner loop `for j in range(L2)` for the row `i` with character
`x = seq1[i]`.  Returns the rewritten column together with the final
state. -/
def lcsInner (x : α) (i : ℕ) :
    List ℕ → List α → ℕ → List (ℕ × ℕ) × ℕ × ℕ →
    List ℕ × (List (ℕ × ℕ) × ℕ × ℕ)
  | [], _, _, st => ([], st)
  | _ :: _, [], _, st => ([], st)
  | old :: col, y :: b, j, (ms, mlen, last) =>
      if x = y then
        let v := if i = 0 ∨ j = 0 then 1 else last + 1
        let st' : List (ℕ × ℕ) × ℕ :=
          if mlen < v then ([(i, j)], v)
          else if v = mlen then (ms ++ [(i, j)], mlen)
          else (ms, mlen)
        let (rest, stOut) := lcsInner x i col b (j + 1) (st'.1, st'.2, old)
        (v :: rest, stOut)
      else
        let (rest, stOut) := lcsInner x i col b (j + 1) (ms, mlen, old)
        (0 :: rest, stOut)

/-- The outer loop `for i in range(L1)`. -/
def lcsLoop (b : List α) : List α → ℕ → List ℕ → List (ℕ × ℕ) × ℕ × ℕ →
    List (ℕ × ℕ) × ℕ
  | [], _, _, (ms, mlen, _) => (ms, mlen)
  | x :: a, i, col, st =>
      let (col', st') := lcsInner x i col b 0 st
      lcsLoop b a (i + 1) col' st'

/-- The recorded end positions `ms` and the maximum length `mlen`. -/
def lcsubData (seq1 seq2 : List α) : List (ℕ × ℕ) × ℕ :=
  lcsLoop seq2 seq1 0 (List.range seq2.length) ([], 0, 0)

/-- `lcsubstrings(seq1, seq2, positions=True) =
(mlen, [(i - mlen + 1, j - mlen + 1) for i, j in ms])` (the
degenerate per-element filter `if ms` is the identity).  Recorded ends
satisfy `mlen ≤ i + 1` and `mlen ≤ j + 1`, so the Python integers
`i - mlen + 1` are the naturals `i + 1 - mlen`. -/
def lcsubstringsPos (seq1 seq2 : List α) : ℕ × List (ℕ × ℕ) :=
  let (ms, mlen) := lcsubData seq1 seq2
  (mlen, ms.map fun p => (p.1 + 1 - mlen, p.2 + 1 - mlen))

/-- `lcsubstrings(seq1, seq2)`: the set
`{seq1[i - mlen + 1 : i + 1] for i, _ in ms}`. -/
def lcsubstrings (seq1 seq2 : List α) : Finset (List α) :=
  let (ms, mlen) := lcsubData seq1 seq2
  (ms.map fun p => ((seq1.take (p.1 + 1)).drop (p.1 + 1 - mlen))).toFinset

/-! ## Elementary properties of the model fold -/

/-- The loop body updating `res` for one model. -/
def resStep (t : Bool) (ld : ℕ) (s1 s2 : List α) (res : ℕ) (m : List Op) : ℕ :=
  match walk t ld s1 s2 m 0 with
  | some c => if c < res then c else res
  | none => res

lemma runModels_eq (t : Bool) (ld : ℕ) (s1 s2 : List α) (models : List (List Op)) :
    runModels t ld s1 s2 models = models.foldl (resStep t ld s1 s2) 3 := rfl

lemma resStep_le_self (t : Bool) (ld : ℕ) (s1 s2 : List α) (res : ℕ) (m : List Op) :
    resStep t ld s1 s2 res m ≤ res := by
  unfold resStep
  rcases h : walk t ld s1 s2 m 0 with _ | c
  · exact le_rfl
  · dsimp only
    split <;> omega

lemma foldl_resStep_le_init (t : Bool) (ld : ℕ) (s1 s2 : List α) :
    ∀ (l : List (List Op)) (r : ℕ), l.foldl (resStep t ld s1 s2) r ≤ r := by
  intro l
  induction l with
  | nil => intro r; simp
  | cons m rest ih =>
      intro r
      calc rest.foldl (resStep t ld s1 s2) (resStep t ld s1 s2 r m)
          ≤ resStep t ld s1 s2 r m := ih _
        _ ≤ r := resStep_le_self ..

lemma foldl_resStep_le_of_mem (t : Bool) (ld : ℕ) (s1 s2 : List α) :
    ∀ (l : List (List Op)) (r : ℕ) (m : List Op) (v : ℕ),
      m ∈ l → walk t ld s1 s2 m 0 = some v →
      l.foldl (resStep t ld s1 s2) r ≤ v := by
  intro l
  induction l with
  | nil => intro r m v hm; simp at hm
  | cons m0 rest ih =>
      intro r m v hm hw
      rcases List.mem_cons.mp hm with rfl | hm'
      · calc rest.foldl (resStep t ld s1 s2) (resStep t ld s1 s2 r m)
            ≤ resStep t ld s1 s2 r m := foldl_resStep_le_init ..
          _ ≤ v := by unfold resStep; rw [hw]; dsimp only; split <;> omega
      · exact ih _ _ _ hm' hw

lemma resStep_cases (t : Bool) (ld : ℕ) (s1 s2 : List α) (res : ℕ) (m : List Op) :
    resStep t ld s1 s2 res m = res ∨
      walk t ld s1 s2 m 0 = some (resStep t ld s1 s2 res m) := by
  unfold resStep
  rcases hw : walk t ld s1 s2 m 0 with _ | c
  · left; rfl
  · dsimp only
    split
    · right; rfl
    · left; rfl

lemma foldl_resStep_attained (t : Bool) (ld : ℕ) (s1 s2 : List α) :
    ∀ (l : List (List Op)) (r : ℕ),
      l.foldl (resStep t ld s1 s2) r = r ∨
        ∃ m ∈ l, walk t ld s1 s2 m 0 = some (l.foldl (resStep t ld s1 s2) r) := by
  intro l
  induction l with
  | nil => intro r; simp
  | cons m0 rest ih =>
      intro r
      rw [List.foldl_cons]
      rcases ih (resStep t ld s1 s2 r m0) with h | ⟨m, hm, hw⟩
      · rw [h]
        rcases resStep_cases t ld s1 s2 r m0 with h2 | h2
        · left; exact h2
        · right; exact ⟨m0, List.mem_cons_self .., h2⟩
      · right; exact ⟨m, List.mem_cons_of_mem _ hm, hw⟩

lemma runModels_le (t : Bool) (ld : ℕ) (s1 s2 : List α) (models : List (List Op)) :
    runModels t ld s1 s2 models ≤ 3 := by
  rw [runModels_eq]; exact foldl_resStep_le_init ..

lemma res_toInt_cases (r : ℕ) (h3 : r ≤ 3) :
    (if r = 3 then (-1 : ℤ) else (r : ℤ)) = -1 ∨
      (if r = 3 then (-1 : ℤ) else (r : ℤ)) = 0 ∨
      (if r = 3 then (-1 : ℤ) else (r : ℤ)) = 1 ∨
      (if r = 3 then (-1 : ℤ) else (r : ℤ)) = 2 := by
  interval_cases r <;> simp

/-- Helper for C9 and C5: `fast_comp` only returns `-1`, `0`, `1`, `2`. -/
lemma fast_comp_cases (str1 str2 : List α) (t : Bool) :
    fast_comp str1 str2 t = -1 ∨ fast_comp str1 str2 t = 0 ∨
      fast_comp str1 str2 t = 1 ∨ fast_comp str1 str2 t = 2 := by
  simp only [fast_comp]
  split
  all_goals split
  all_goals first
    | (left; rfl)
    | exact res_toInt_cases _ (runModels_le ..)

/-! ## C9 -/

/-- C9: for every pair of sequences and either value of the
transpositions flag, `fast_comp` returns a value in `{-1, 0, 1, 2}`:
an edit distance in `{0, 1, 2}` or the sentinel `-1`. -/
theorem C9_fast_comp_range (str1 str2 : List α) (t : Bool) :
    fast_comp str1 str2 t = -1 ∨ fast_comp str1 str2 t = 0 ∨
      fast_comp str1 str2 t = 1 ∨ fast_comp str1 str2 t = 2 :=
  fast_comp_cases str1 str2 t

/-! ## C6 and C7: `hamming` -/

lemma diff_zip_count (a : List α) : ∀ b : List α, a.length = b.length →
    ((a.zip b).filter fun p => p.1 ≠ p.2).length
      = (List.range a.length).countP fun i => a.get? i ≠ b.get? i := by
  induction a with
  | nil => intro b h; simp
  | cons x xs ih =>
      intro b h
      cases b with
      | nil => simp at h
      | cons y ys =>
          simp only [List.length_cons, Nat.succ.injEq] at h
          rw [← List.countP_eq_length_filter, List.zip_cons_cons, List.countP_cons,
            List.length_cons, List.range_succ_eq_map, List.countP_cons, List.countP_map,
            List.countP_eq_length_filter, List.countP_eq_length_filter, ih ys h,
            List.countP_eq_length_filter]
          simp [Function.comp_def]

/-- C6: `hamming` fails (with the unequal-length error, surfaced as an
`error` value, never an `ok`) exactly when the lengths differ. -/
theorem C6_hamming_error_iff (seq1 seq2 : List α) (normalized : Bool) :
    (seq1.length = seq2.length → ∃ v, hamming seq1 seq2 normalized = .ok v) ∧
      (seq1.length ≠ seq2.length →
        hamming seq1 seq2 normalized = .error "expected two strings of the same length") := by
  constructor
  · intro h
    unfold hamming
    rw [if_neg (by simpa using h)]
    split
    · exact ⟨_, rfl⟩
    · split <;> exact ⟨_, rfl⟩
  · intro h
    unfold hamming
    rw [if_pos (by simpa using h)]

theorem C6_hamming_error_iff_witness :
    (∃ v, hamming (['a'] : List Char) ['b'] false = .ok v) ∧
      hamming (['a'] : List Char) ['a', 'b'] false
        = .error "expected two strings of the same length" :=
  ⟨(C6_hamming_error_iff ['a'] ['b'] false).1 (by decide),
   (C6_hamming_error_iff ['a'] ['a', 'b'] false).2 (by decide)⟩

/-- C7: on equal-length sequences, `hamming` returns the number of
positions at which the two sequences differ; `normalized=True` divides
that count by the common length, and two empty sequences give `0`. -/
theorem C7_hamming_counts (seq1 seq2 : List α) (h : seq1.length = seq2.length) :
    hamming seq1 seq2 false
        = .ok (.int ((List.range seq1.length).countP fun i => seq1.get? i ≠ seq2.get? i)) ∧
      hamming seq1 seq2 true
        = .ok (.float ((((List.range seq1.length).countP
            fun i => seq1.get? i ≠ seq2.get? i : ℕ)) / (seq1.length : ℚ))) ∧
      (seq1 = [] → hamming seq1 seq2 false = .ok (.int 0) ∧
        hamming seq1 seq2 true = .ok (.float 0)) := by
  refine ⟨?_, ?_, ?_⟩
  · unfold hamming
    rw [if_neg (by simpa using h)]
    split
    · rename_i h0
      simp [h0]
    · rw [if_neg (by simp)]
      rw [diff_zip_count seq1 seq2 h]
  · unfold hamming
    rw [if_neg (by simpa using h)]
    split
    · rename_i h0
      simp [h0]
    · rw [if_pos (by simp)]
      rw [diff_zip_count seq1 seq2 h]
  · intro h1
    subst h1
    have h2 : seq2 = [] := by simpa using h.symm
    subst h2
    exact ⟨rfl, rfl⟩

theorem C7_hamming_counts_witness :
    hamming (['a', 'b'] : List Char) ['a', 'c'] false
        = .ok (.int ((List.range 2).countP
            fun i => (['a', 'b'] : List Char).get? i ≠ (['a', 'c'] : List Char).get? i)) :=
  (C7_hamming_counts ['a', 'b'] ['a', 'c'] (by decide)).1

/-! ## C8: `jaccard` and `sorensen` -/

/-- C8: on inputs with at least one non-empty sequence, `jaccard`
returns `1 - |∩| / |∪|` over the element sets and `sorensen` returns
`1 - 2|∩| / (|set1| + |set2|)`, both in `[0, 1]`; two empty inputs hit
the division by zero, surfaced as an error. -/
theorem C8_jaccard_sorensen (seq1 seq2 : List α) :
    (seq1 ≠ [] ∨ seq2 ≠ [] →
      ∃ qj qs, jaccard seq1 seq2 = .ok qj ∧ sorensen seq1 seq2 = .ok qs ∧
        qj = 1 - ((seq1.toFinset ∩ seq2.toFinset).card : ℚ)
          / ((seq1.toFinset ∪ seq2.toFinset).card : ℚ) ∧
        qs = 1 - 2 * ((seq1.toFinset ∩ seq2.toFinset).card : ℚ)
          / ((seq1.toFinset.card : ℚ) + (seq2.toFinset.card : ℚ)) ∧
        0 ≤ qj ∧ qj ≤ 1 ∧ 0 ≤ qs ∧ qs ≤ 1) ∧
    (seq1 = [] → seq2 = [] →
      jaccard seq1 seq2 = .error "ZeroDivisionError" ∧
        sorensen seq1 seq2 = .error "ZeroDivisionError") := by
  constructor
  · intro hne
    have hu : 0 < (seq1.toFinset ∪ seq2.toFinset).card := by
      rw [Finset.card_pos]
      rcases hne with h | h
      · obtain ⟨x, hx⟩ := List.exists_mem_of_ne_nil _ h
        exact ⟨x, by simp [hx]⟩
      · obtain ⟨x, hx⟩ := List.exists_mem_of_ne_nil _ h
        exact ⟨x, by simp [hx]⟩
    have hs : 0 < seq1.toFinset.card + seq2.toFinset.card := by
      rcases hne with h | h
      · have := Finset.card_pos.mpr ((List.toFinset_nonempty_iff seq1).mpr h)
        omega
      · have := Finset.card_pos.mpr ((List.toFinset_nonempty_iff seq2).mpr h)
        omega
    have hiu : (seq1.toFinset ∩ seq2.toFinset).card ≤ (seq1.toFinset ∪ seq2.toFinset).card :=
      Finset.card_le_card (Finset.inter_subset_union)
    have hi1 : (seq1.toFinset ∩ seq2.toFinset).card ≤ seq1.toFinset.card :=
      Finset.card_le_card Finset.inter_subset_left
    have hi2 : (seq1.toFinset ∩ seq2.toFinset).card ≤ seq2.toFinset.card :=
      Finset.card_le_card Finset.inter_subset_right
    refine ⟨_, _, ?_, ?_, rfl, rfl, ?_, ?_, ?_, ?_⟩
    · unfold jaccard
      rw [if_neg (by omega)]
    · unfold sorensen
      rw [if_neg (by omega)]
    · have : ((seq1.toFinset ∩ seq2.toFinset).card : ℚ)
          / ((seq1.toFinset ∪ seq2.toFinset).card : ℚ) ≤ 1 := by
        rw [div_le_one (by exact_mod_cast hu)]
        exact_mod_cast hiu
      linarith
    · have : (0 : ℚ) ≤ ((seq1.toFinset ∩ seq2.toFinset).card : ℚ)
          / ((seq1.toFinset ∪ seq2.toFinset).card : ℚ) :=
        div_nonneg (by positivity) (by positivity)
      linarith
    · have hle : 2 * (seq1.toFinset ∩ seq2.toFinset).card
          ≤ seq1.toFinset.card + seq2.toFinset.card := by omega
      have : 2 * ((seq1.toFinset ∩ seq2.toFinset).card : ℚ)
          / ((seq1.toFinset.card : ℚ) + (seq2.toFinset.card : ℚ)) ≤ 1 := by
        rw [div_le_one (by exact_mod_cast hs)]
        exact_mod_cast hle
      linarith
    · have : (0 : ℚ) ≤ 2 * ((seq1.toFinset ∩ seq2.toFinset).card : ℚ)
          / ((seq1.toFinset.card : ℚ) + (seq2.toFinset.card : ℚ)) :=
        div_nonneg (by positivity) (by positivity)
      linarith
  · rintro rfl rfl
    exact ⟨rfl, rfl⟩

theorem C8_jaccard_sorensen_witness :
    ∃ qj qs, jaccard (['a'] : List Char) [] = .ok qj ∧
      sorensen (['a'] : List Char) [] = .ok qs ∧
      qj = 1 - (((['a'] : List Char).toFinset ∩ ([] : List Char).toFinset).card : ℚ)
        / (((['a'] : List Char).toFinset ∪ ([] : List Char).toFinset).card : ℚ) ∧
      qs = 1 - 2 * (((['a'] : List Char).toFinset ∩ ([] : List Char).toFinset).card : ℚ)
        / ((((['a'] : List Char).toFinset.card : ℚ)) + (([] : List Char).toFinset.card : ℚ)) ∧
      0 ≤ qj ∧ qj ≤ 1 ∧ 0 ≤ qs ∧ qs ≤ 1 :=
  (C8_jaccard_sorensen ['a'] []).1 (Or.inl (by decide))

/-! ## C3: transpositions in `fast_comp` -/

/-- C3: `fast_comp("abc", "bac")` is `2` without and `1` with
transpositions; in general, with transpositions enabled and
`ldiff ≠ 2`, an adjacent swap at a mismatch (`str1[i+1] == str2[j]`,
`str1[i] == str2[j+1]`) costs one operation and advances both cursors
(modelled as list suffixes) by two.  The cost increment also moves the
cost-indexed model cursor, so the unconsumed model ops shrink to
`rem.tail`. -/
theorem C3_fast_comp_transpositions :
    fast_comp ['a', 'b', 'c'] ['b', 'a', 'c'] false = 2 ∧
      fast_comp ['a', 'b', 'c'] ['b', 'a', 'c'] true = 1 ∧
      ∀ (x y : α) (a b : List α) (rem : List Op) (c ld : ℕ),
        x ≠ y → c + 1 ≤ 2 → ld ≠ 2 →
        walk true ld (x :: y :: a) (y :: x :: b) rem c
          = walk true ld a b rem.tail (c + 1) := by
  refine ⟨by simp [fast_comp, runModels, modelsFor, resStep, walk],
    by simp [fast_comp, runModels, modelsFor, resStep, walk], ?_⟩
  intro x y a b rem c ld hxy hc hld
  rw [walk.eq_def]
  dsimp only
  rw [if_neg hxy, if_neg (by omega), if_pos ⟨rfl, hld, rfl, rfl⟩]
  rfl

theorem C3_fast_comp_transpositions_witness :
    walk true 0 (['a', 'b'] : List Char) ['b', 'a'] [Op.r, Op.r] 0
      = walk true 0 ([] : List Char) [] [Op.r] 1 :=
  (C3_fast_comp_transpositions (α := Char)).2.2 'a' 'b' [] [] [Op.r, Op.r] 0 0
    (by decide) (by omega) (by omega)

/-! ## C5: `ifast_comp` -/

/-- Comparison of `(distance, string)` pairs as Python's `sorted`
orders tuples: first component, then the string lexicographically. -/
def strLe : List Char → List Char → Bool
  | [], _ => true
  | _ :: _, [] => false
  | x :: xs, y :: ys => if x = y then strLe xs ys else decide (x < y)

def pairLe (p q : ℤ × List Char) : Bool :=
  if p.1 = q.1 then strLe p.2 q.2 else decide (p.1 < q.1)

/-- Insertion sort by `pairLe`, standing in for Python's `sorted`. -/
def insertPair (p : ℤ × List Char) : List (ℤ × List Char) → List (ℤ × List Char)
  | [] => [p]
  | q :: rest => if pairLe p q then p :: q :: rest else q :: insertPair p rest

def pySorted : List (ℤ × List Char) → List (ℤ × List Char)
  | [] => []
  | p :: rest => insertPair p (pySorted rest)

/-- C5: `ifast_comp` yields `(fast_comp(str1, s), s)` exactly for the
candidates `s` whose bounded distance is at most 2 (i.e. not the
sentinel `-1`), in input order; sorting the documented example gives
`[(0, "foo"), (1, "fo"), (1, "foob")]`. -/
theorem C5_ifast_comp_filters (str1 : List α) (strs : List (List α)) (t : Bool) :
    ifast_comp str1 strs t
        = (strs.filter fun s => fast_comp str1 s t ≠ -1).map
            (fun s => (fast_comp str1 s t, s)) ∧
      (∀ s, fast_comp str1 s t ≠ -1 ↔
        0 ≤ fast_comp str1 s t ∧ fast_comp str1 s t ≤ 2) ∧
      pySorted (ifast_comp ['f', 'o', 'o']
            [['f', 'o'], ['b', 'a', 'r'], ['f', 'o', 'o', 'b'], ['f', 'o', 'o'],
              ['f', 'o', 'o', 'b', 'a', 'z']] false)
        = [(0, ['f', 'o', 'o']), (1, ['f', 'o']), (1, ['f', 'o', 'o', 'b'])] := by
  refine ⟨?_, ?_, ?_⟩
  · induction strs with
    | nil => rfl
    | cons s rest ih =>
        simp only [ifast_comp, List.filter_cons]
        by_cases h : fast_comp str1 s t ≠ -1
        · rw [if_pos h, if_pos (by simpa using h), List.map_cons, ih]
        · rw [if_neg h, if_neg (by simpa using h), ih]
  · intro s
    rcases fast_comp_cases str1 s t with h | h | h | h <;> rw [h] <;> norm_num
  · have hconc : ifast_comp ['f', 'o', 'o']
        [['f', 'o'], ['b', 'a', 'r'], ['f', 'o', 'o', 'b'], ['f', 'o', 'o'],
          ['f', 'o', 'o', 'b', 'a', 'z']] false
        = [(1, ['f', 'o']), (1, ['f', 'o', 'o', 'b']), (0, ['f', 'o', 'o'])] := by
      simp [ifast_comp, fast_comp, runModels, modelsFor, resStep, walk]
    rw [hconc]
    decide

/-! ## C10: `iquick_levenshtein` -/

/-- C10: `iquick_levenshtein` resolves the undefined name `str2`, so
for every pair of arguments it raises a `NameError` and never yields a
pair. -/
theorem C10_iquick_levenshtein_name_error (str1 : List α) (strs : List (List α)) :
    iquick_levenshtein str1 strs = .error "NameError: name 'str2' is not defined" ∧
      ∀ l, iquick_levenshtein str1 strs ≠ .ok l := by
  refine ⟨rfl, ?_⟩
  intro l h
  rw [show iquick_levenshtein str1 strs
      = .error "NameError: name 'str2' is not defined" from rfl] at h
  exact Except.noConfusion h

/-! ## Edit scripts and the reference Levenshtein distance

An edit script records, in the order in which they apply along the two
sequences, the non-copy operations of an alignment: `.d` deletes an
element of the first sequence, `.i` inserts an element of the second,
`.r` substitutes one element by another.  `OpsA` allows arbitrary
substitutions; `OpsAP` only proper ones (`x ≠ y`). -/

inductive OpsA : List α → List α → List Op → Prop where
  | nil : OpsA [] [] []
  | keep : ∀ {x : α} {xs ys ops}, OpsA xs ys ops → OpsA (x :: xs) (x :: ys) ops
  | del : ∀ {x : α} {xs ys ops}, OpsA xs ys ops → OpsA (x :: xs) ys (Op.d :: ops)
  | ins : ∀ {y : α} {xs ys ops}, OpsA xs ys ops → OpsA xs (y :: ys) (Op.i :: ops)
  | sub : ∀ {x y : α} {xs ys ops}, OpsA xs ys ops → OpsA (x :: xs) (y :: ys) (Op.r :: ops)

inductive OpsAP : List α → List α → List Op → Prop where
  | nil : OpsAP [] [] []
  | keep : ∀ {x : α} {xs ys ops}, OpsAP xs ys ops → OpsAP (x :: xs) (x :: ys) ops
  | del : ∀ {x : α} {xs ys ops}, OpsAP xs ys ops → OpsAP (x :: xs) ys (Op.d :: ops)
  | ins : ∀ {y : α} {xs ys ops}, OpsAP xs ys ops → OpsAP xs (y :: ys) (Op.i :: ops)
  | sub : ∀ {x y : α} {xs ys ops}, x ≠ y → OpsAP xs ys ops →
      OpsAP (x :: xs) (y :: ys) (Op.r :: ops)

lemma OpsAP.toOpsA {a b : List α} {ops : List Op} (h : OpsAP a b ops) :
    OpsA a b ops := by
  induction h with
  | nil => exact .nil
  | keep _ ih => exact .keep ih
  | del _ ih => exact .del ih
  | ins _ ih => exact .ins ih
  | sub _ _ ih => exact .sub ih

lemma opsAP_refl (s : List α) : OpsAP s s [] := by
  induction s with
  | nil => exact .nil
  | cons x s ih => exact .keep ih

lemma opsAP_keeps (p : List α) {a b : List α} {ops : List Op} (h : OpsAP a b ops) :
    OpsAP (p ++ a) (p ++ b) ops := by
  induction p with
  | nil => exact h
  | cons z p ih => exact .keep ih

lemma opsAP_nil_left (b : List α) : OpsAP [] b (List.replicate b.length Op.i) := by
  induction b with
  | nil => exact .nil
  | cons y b ih => exact .ins ih

lemma opsAP_nil_right (a : List α) : OpsAP a [] (List.replicate a.length Op.d) := by
  induction a with
  | nil => exact .nil
  | cons x a ih => exact .del ih

lemma opsAP_nil_elim {a b : List α} (h : OpsAP a b []) : a = b := by
  generalize hops : ([] : List Op) = ops at h
  induction h with
  | nil => rfl
  | keep _ ih => rw [ih hops]
  | del => exact absurd hops (by simp)
  | ins => exact absurd hops (by simp)
  | sub => exact absurd hops (by simp)

lemma opsAP_right_nil_elim {a : List α} {ops : List Op} (h : OpsAP a [] ops) :
    ops = List.replicate a.length Op.d := by
  generalize hb : ([] : List α) = b at h
  induction h with
  | nil => rfl
  | keep _ ih => exact absurd hb (by simp)
  | del _ ih => simp [ih hb, List.replicate_succ]
  | ins _ ih => exact absurd hb (by simp)
  | sub _ _ ih => exact absurd hb (by simp)

lemma opsAP_left_nil_elim {b : List α} {ops : List Op} (h : OpsAP [] b ops) :
    ops = List.replicate b.length Op.i := by
  generalize ha : ([] : List α) = a at h
  induction h with
  | nil => rfl
  | keep _ ih => exact absurd ha (by simp)
  | del _ ih => exact absurd ha (by simp)
  | ins _ ih => simp [ih ha, List.replicate_succ]
  | sub _ _ ih => exact absurd ha (by simp)

/-- Book-keeping: deletions and insertions account for the length
difference of the two sequences. -/
lemma opsAP_count {a b : List α} {ops : List Op} (h : OpsAP a b ops) :
    a.length + ops.count Op.i = b.length + ops.count Op.d := by
  induction h with
  | nil => rfl
  | keep _ ih => simp only [List.length_cons]; omega
  | del _ ih => simp [List.count_cons]; omega
  | ins _ ih => simp [List.count_cons]; omega
  | sub _ _ ih => simp [List.count_cons]; omega

def swapOp : Op → Op
  | .d => .i
  | .i => .d
  | .r => .r

lemma opsAP_symm {a b : List α} {ops : List Op} (h : OpsAP a b ops) :
    OpsAP b a (ops.map swapOp) := by
  induction h with
  | nil => exact .nil
  | keep _ ih => exact .keep ih
  | del _ ih => exact .ins ih
  | ins _ ih => exact .del ih
  | sub hxy _ ih => exact .sub (Ne.symm hxy) ih

lemma opsAP_snoc_keep (x : α) {a b : List α} {ops : List Op} (h : OpsAP a b ops) :
    OpsAP (a ++ [x]) (b ++ [x]) ops := by
  induction h with
  | nil => exact .keep .nil
  | keep _ ih => exact .keep ih
  | del _ ih => exact .del ih
  | ins _ ih => exact .ins ih
  | sub hxy _ ih => exact .sub hxy ih

lemma opsAP_snoc_del (x : α) {a b : List α} {ops : List Op} (h : OpsAP a b ops) :
    OpsAP (a ++ [x]) b (ops ++ [Op.d]) := by
  induction h with
  | nil => exact .del .nil
  | keep _ ih => exact .keep ih
  | del _ ih => exact .del ih
  | ins _ ih => exact .ins ih
  | sub hxy _ ih => exact .sub hxy ih

lemma opsAP_snoc_ins (y : α) {a b : List α} {ops : List Op} (h : OpsAP a b ops) :
    OpsAP a (b ++ [y]) (ops ++ [Op.i]) := by
  induction h with
  | nil => exact .ins .nil
  | keep _ ih => exact .keep ih
  | del _ ih => exact .del ih
  | ins _ ih => exact .ins ih
  | sub hxy _ ih => exact .sub hxy ih

lemma opsAP_snoc_sub {x y : α} (hxy : x ≠ y) {a b : List α} {ops : List Op}
    (h : OpsAP a b ops) : OpsAP (a ++ [x]) (b ++ [y]) (ops ++ [Op.r]) := by
  induction h with
  | nil => exact .sub hxy .nil
  | keep _ ih => exact .keep ih
  | del _ ih => exact .del ih
  | ins _ ih => exact .ins ih
  | sub hxy' _ ih => exact .sub hxy' ih

lemma opsAP_reverse {a b : List α} {ops : List Op} (h : OpsAP a b ops) :
    OpsAP a.reverse b.reverse ops.reverse := by
  induction h with
  | nil => exact .nil
  | keep _ ih => simpa only [List.reverse_cons] using opsAP_snoc_keep _ ih
  | del _ ih => simpa only [List.reverse_cons] using opsAP_snoc_del _ ih
  | ins _ ih => simpa only [List.reverse_cons] using opsAP_snoc_ins _ ih
  | sub hxy _ ih => simpa only [List.reverse_cons] using opsAP_snoc_sub hxy ih

/-- The textbook recursive Levenshtein distance, the reference
specification for the claims. -/
def lev : List α → List α → ℕ
  | [], ys => ys.length
  | _ :: xs, [] => xs.length + 1
  | x :: xs, y :: ys =>
      min (lev xs (y :: ys) + 1)
        (min (lev (x :: xs) ys + 1) (lev xs ys + if x = y then 0 else 1))
  termination_by a b => a.length + b.length
  decreasing_by all_goals simp_wf; all_goals omega

lemma lev_nil (ys : List α) : lev [] ys = ys.length := by
  rw [lev.eq_def]

lemma lev_cons_nil (x : α) (xs : List α) : lev (x :: xs) [] = xs.length + 1 := by
  rw [lev.eq_def]

lemma lev_cons_cons (x y : α) (xs ys : List α) :
    lev (x :: xs) (y :: ys)
      = min (lev xs (y :: ys) + 1)
          (min (lev (x :: xs) ys + 1) (lev xs ys + if x = y then 0 else 1)) := by
  rw [lev.eq_def]

lemma lev_nil_right (xs : List α) : lev xs [] = xs.length := by
  cases xs with
  | nil => rw [lev_nil]
  | cons x xs => rw [lev_cons_nil]; rfl

lemma lev_le_del (x : α) (xs ys : List α) : lev (x :: xs) ys ≤ lev xs ys + 1 := by
  cases ys with
  | nil => simp [lev_cons_nil, lev_nil_right]
  | cons y ys => rw [lev_cons_cons]; exact min_le_left _ _

lemma lev_le_ins (y : α) (xs ys : List α) : lev xs (y :: ys) ≤ lev xs ys + 1 := by
  cases xs with
  | nil => simp [lev_nil]
  | cons x xs => rw [lev_cons_cons]; exact le_trans (min_le_right _ _) (min_le_left _ _)

lemma lev_le_sub (x y : α) (xs ys : List α) :
    lev (x :: xs) (y :: ys) ≤ lev xs ys + 1 := by
  rw [lev_cons_cons]
  refine le_trans (le_trans (min_le_right _ _) (min_le_right _ _)) ?_
  split <;> omega

lemma lev_le_keep (x : α) (xs ys : List α) : lev (x :: xs) (x :: ys) ≤ lev xs ys := by
  rw [lev_cons_cons]
  refine le_trans (le_trans (min_le_right _ _) (min_le_right _ _)) ?_
  simp

/-- Any edit script dominates `lev`: minimality of the distance. -/
lemma lev_le_of_opsA {a b : List α} {ops : List Op} (h : OpsA a b ops) :
    lev a b ≤ ops.length := by
  induction h with
  | nil => simp [lev_nil]
  | keep _ ih => exact le_trans (lev_le_keep ..) ih
  | del _ ih =>
      refine le_trans (lev_le_del ..) ?_
      simpa using Nat.add_le_add_right ih 1
  | ins _ ih =>
      refine le_trans (lev_le_ins ..) ?_
      simpa using Nat.add_le_add_right ih 1
  | sub _ ih =>
      refine le_trans (lev_le_sub ..) ?_
      simpa using Nat.add_le_add_right ih 1

/-- `lev` is attained by a proper edit script. -/
lemma exists_opsAP_lev (a b : List α) :
    ∃ ops, OpsAP a b ops ∧ ops.length = lev a b := by
  generalize hn : a.length + b.length = n
  induction n using Nat.strong_induction_on generalizing a b with
  | _ n ih =>
      cases a with
      | nil => exact ⟨_, opsAP_nil_left b, by simp [lev_nil]⟩
      | cons x xs =>
          cases b with
          | nil => exact ⟨_, opsAP_nil_right (x :: xs), by simp [lev_cons_nil]⟩
          | cons y ys =>
              have h3 : lev (x :: xs) (y :: ys) = lev xs (y :: ys) + 1 ∨
                  lev (x :: xs) (y :: ys) = lev (x :: xs) ys + 1 ∨
                  lev (x :: xs) (y :: ys) = lev xs ys + if x = y then 0 else 1 := by
                rw [lev_cons_cons]; omega
              rcases h3 with h3 | h3 | h3
              · obtain ⟨ops, hops, hlen⟩ := ih (xs.length + (y :: ys).length)
                  (by simp at hn ⊢; omega) xs (y :: ys) rfl
                exact ⟨_, .del hops, by simp [hlen, h3]⟩
              · obtain ⟨ops, hops, hlen⟩ := ih ((x :: xs).length + ys.length)
                  (by simp at hn ⊢; omega) (x :: xs) ys rfl
                exact ⟨_, .ins hops, by simp [hlen, h3]⟩
              · obtain ⟨ops, hops, hlen⟩ := ih (xs.length + ys.length)
                  (by simp at hn ⊢; omega) xs ys rfl
                by_cases hxy : x = y
                · subst hxy
                  simp at h3
                  exact ⟨_, .keep hops, by omega⟩
                · exact ⟨_, .sub hxy hops, by simp [hlen, h3, hxy]⟩

lemma lev_refl (a : List α) : lev a a = 0 :=
  Nat.le_zero.mp (by simpa using lev_le_of_opsA (opsAP_refl a).toOpsA)

lemma lev_comm (a b : List α) : lev a b = lev b a := by
  have h1 : ∀ u v : List α, lev u v ≤ lev v u := by
    intro u v
    obtain ⟨ops, hops, hlen⟩ := exists_opsAP_lev v u
    calc lev u v ≤ (ops.map swapOp).length := lev_le_of_opsA (opsAP_symm hops).toOpsA
      _ = lev v u := by simp [hlen]
  exact le_antisymm (h1 a b) (h1 b a)

lemma lev_reverse (a b : List α) : lev a.reverse b.reverse = lev a b := by
  have h1 : ∀ u v : List α, lev u.reverse v.reverse ≤ lev u v := by
    intro u v
    obtain ⟨ops, hops, hlen⟩ := exists_opsAP_lev u v
    calc lev u.reverse v.reverse
        ≤ ops.reverse.length := lev_le_of_opsA (opsAP_reverse hops).toOpsA
      _ = lev u v := by simp [hlen]
  refine le_antisymm (h1 a b) ?_
  have := h1 a.reverse b.reverse
  simpa using this

/-! ## Correctness of the imperative DP in `levenshtein`

The rolling column after processing the prefix `xs` of the outer
sequence holds the distances between `xs` and the prefixes of the inner
sequence; these are `lev` on reversed lists. -/

/-- `lev` on reversed lists: the prefix-table entry of the DP. -/
def levp (xs ys : List α) : ℕ := lev xs.reverse ys.reverse

lemma levp_nil_right (xs : List α) : levp xs [] = xs.length := by
  simp [levp, lev_nil_right]

lemma levp_nil_left (ys : List α) : levp [] ys = ys.length := by
  simp [levp, lev_nil]

lemma levp_snoc_snoc (c y : α) (xs ys : List α) :
    levp (xs ++ [c]) (ys ++ [y])
      = min (levp xs (ys ++ [y]) + 1)
          (min (levp (xs ++ [c]) ys + 1) (levp xs ys + if c ≠ y then 1 else 0)) := by
  unfold levp
  simp only [List.reverse_append, List.reverse_cons, List.reverse_nil, List.nil_append,
    List.singleton_append]
  rw [lev_cons_cons]
  by_cases hcy : c = y <;> simp [hcy]

/-- The intended contents of the DP row for the consumed outer prefix
`xs` and the remaining inner suffix `ys` after `ys0`. -/
def rowOut (xs : List α) : List α → List α → List ℕ
  | ys0, [] => []
  | ys0, y :: ys => levp xs (ys0 ++ [y]) :: rowOut xs (ys0 ++ [y]) ys

lemma rowOut_length (xs : List α) :
    ∀ (ys ys0 : List α), (rowOut xs ys0 ys).length = ys.length := by
  intro ys
  induction ys with
  | nil => intro ys0; rfl
  | cons y ys ih => intro ys0; simp [rowOut, ih]

/-- One pass of the inner loop rewrites the row for `xs` into the row
for `xs ++ [c]`. -/
lemma levRowAux_spec (c : α) (xs : List α) :
    ∀ (ys ys0 : List α),
      levRowAux c (levp xs ys0) (levp (xs ++ [c]) ys0) ((rowOut xs ys0 ys).zip ys)
        = rowOut (xs ++ [c]) ys0 ys := by
  intro ys
  induction ys with
  | nil => intro ys0; rfl
  | cons y ys ih =>
      intro ys0
      have hv : min (levp xs (ys0 ++ [y]) + 1)
          (min (levp (xs ++ [c]) ys0 + 1) (levp xs ys0 + if c ≠ y then 1 else 0))
          = levp (xs ++ [c]) (ys0 ++ [y]) := (levp_snoc_snoc c y xs ys0).symm
      simp only [rowOut, List.zip_cons_cons, levRowAux, hv]
      exact congrArg _ (ih (ys0 ++ [y]))

lemma rowOut_empty :
    ∀ (ys ys0 : List α),
      rowOut ([] : List α) ys0 ys = (List.range ys.length).map fun k => ys0.length + k + 1 := by
  intro ys
  induction ys with
  | nil => intro ys0; rfl
  | cons y ys ih =>
      intro ys0
      simp only [rowOut, levp_nil_left, List.length_append, List.length_cons,
        List.length_nil, List.range_succ_eq_map, List.map_cons, List.map_map]
      refine congrArg₂ _ (by omega) ?_
      rw [ih (ys0 ++ [y])]
      refine List.map_congr_left ?_
      intro k _
      simp [Function.comp]
      omega

lemma rowOut_getLast? (xs : List α) :
    ∀ (ys ys0 : List α), ys ≠ [] →
      (rowOut xs ys0 ys).getLast? = some (levp xs (ys0 ++ ys)) := by
  intro ys
  induction ys with
  | nil => intro ys0 h; exact absurd rfl h
  | cons y ys ih =>
      intro ys0 _
      cases ys with
      | nil => simp [rowOut]
      | cons z zs =>
          rw [show rowOut xs ys0 (y :: z :: zs)
              = levp xs (ys0 ++ [y]) :: rowOut xs (ys0 ++ [y]) (z :: zs) from rfl]
          rw [show rowOut xs (ys0 ++ [y]) (z :: zs)
              = levp xs (ys0 ++ [y] ++ [z]) :: rowOut xs (ys0 ++ [y] ++ [z]) zs from rfl]
          rw [List.getLast?_cons_cons]
          rw [show levp xs (ys0 ++ [y] ++ [z]) :: rowOut xs (ys0 ++ [y] ++ [z]) zs
              = rowOut xs (ys0 ++ [y]) (z :: zs) from rfl]
          rw [ih (ys0 ++ [y]) (by simp)]
          simp

lemma zip_eq_zip_take {β γ : Type _} (l : List β) (ys : List γ) :
    l.zip ys = (l.take ys.length).zip ys := by
  induction l generalizing ys with
  | nil => simp
  | cons a l ih =>
      cases ys with
      | nil => simp
      | cons y ys => simp [List.zip_cons_cons, ih ys]

/-- The outer loop, once the column has the invariant shape. -/
lemma levLoop_inv (s2 : List α) (hs2 : s2 ≠ []) :
    ∀ (rest xs : List α),
      levLoop s2 rest (xs.length + 1) (xs.length :: rowOut xs [] s2)
        = levp (xs ++ rest) s2 := by
  intro rest
  induction rest with
  | nil =>
      intro xs
      have hne : rowOut xs [] s2 ≠ [] := by
        intro h
        have := rowOut_length xs s2 []
        rw [h] at this
        exact hs2 (List.length_eq_zero.mp this.symm)
      simp only [levLoop, List.getLastD_cons, List.append_nil]
      rw [List.getLastD_eq_getLast?, rowOut_getLast? xs s2 [] hs2]
      simp
  | cons ch rest ih =>
      intro xs
      have h1 : levRowAux ch (levp xs []) (levp (xs ++ [ch]) [])
          ((rowOut xs [] s2).zip s2) = rowOut (xs ++ [ch]) [] s2 :=
        levRowAux_spec ch xs s2 []
      rw [levp_nil_right, levp_nil_right] at h1
      simp only [List.length_append, List.length_singleton] at h1
      simp only [levLoop, List.headD_cons, List.tail_cons, List.length_append,
        List.length_cons, List.length_nil]
      rw [h1]
      have h2 := ih (xs ++ [ch])
      simp only [List.length_append, List.length_cons, List.length_nil,
        List.append_assoc, List.singleton_append] at h2
      convert h2 using 2

/-- The DP in `levenshtein` computes `lev`. -/
lemma levenshtein_eq_lev (seq1 seq2 : List α) :
    levenshtein seq1 seq2 = lev seq1 seq2 := by
  unfold levenshtein
  by_cases heq : seq1 = seq2
  · rw [if_pos heq, heq, lev_refl]
  rw [if_neg heq]
  by_cases h1 : seq1.length = 0
  · rw [if_pos h1, List.length_eq_zero.mp h1, lev_nil]
  rw [if_neg h1]
  by_cases h2 : seq2.length = 0
  · rw [if_pos h2, List.length_eq_zero.mp h2, lev_nil_right]
  rw [if_neg h2]
  have key : ∀ (s1 s2 : List α), s1 ≠ [] → s2 ≠ [] → s2.length ≤ s1.length →
      levLoop s2 s1 1 (List.range (s1.length + 1)) = lev s1 s2 := by
    intro s1 s2 hs1 hs2 hle
    cases s1 with
    | nil => exact absurd rfl hs1
    | cons ch rest =>
        have htail : (List.range ((ch :: rest).length + 1)).tail.zip s2
            = (rowOut ([] : List α) [] s2).zip s2 := by
          rw [List.range_succ_eq_map, List.tail_cons]
          rw [zip_eq_zip_take (List.map Nat.succ (List.range (ch :: rest).length)) s2,
            zip_eq_zip_take (rowOut ([] : List α) [] s2) s2]
          congr 1
          rw [← List.map_take, List.take_range]
          have hmin : min s2.length (ch :: rest).length = s2.length := by
            simpa using hle
          rw [hmin, List.take_of_length_le (le_of_eq (rowOut_length _ s2 [])),
            rowOut_empty s2 []]
          refine List.map_congr_left ?_
          intro k _
          simp [Nat.succ_eq_add_one]
        have hhead : (List.range ((ch :: rest).length + 1)).headD 0 = 0 := by
          rw [List.range_succ_eq_map]; rfl
        simp only [levLoop, hhead, htail]
        have h1 : levRowAux ch (levp ([] : List α) []) (levp ([] ++ [ch]) [])
            ((rowOut ([] : List α) [] s2).zip s2) = rowOut ([] ++ [ch]) [] s2 :=
          levRowAux_spec ch [] s2 []
        rw [levp_nil_right, levp_nil_right] at h1
        simp only [List.nil_append, List.length_nil, List.length_cons] at h1 ⊢
        rw [h1]
        have h2 := levLoop_inv s2 hs2 rest [ch]
        simp only [List.length_cons, List.length_nil, List.singleton_append] at h2
        rw [h2]
        unfold levp
        rw [lev_reverse]
  by_cases hlt : seq1.length < seq2.length
  · rw [if_pos hlt, if_pos hlt]
    have := key seq2 seq1 (by intro h; subst h; simp at hlt) (by intro h; exact h1 (by subst h; rfl))
      (le_of_lt hlt)
    rw [this, lev_comm]
  · rw [if_neg hlt, if_neg hlt]
    exact key seq1 seq2 (by intro h; exact h1 (by subst h; rfl))
      (by intro h; exact h2 (by subst h; rfl)) (by omega)

/-! ## C2 -/

/-- C2: `levenshtein` with `normalized=False` returns the minimum
number of single-element insertions, deletions and substitutions
transforming one sequence into the other (as edit scripts `OpsA`); it
returns `0` on equal sequences and the other's length when one
sequence is empty. -/
theorem C2_levenshtein_min_edits (seq1 seq2 : List α) :
    (∃ ops, OpsA seq1 seq2 ops ∧ ops.length = levenshtein seq1 seq2) ∧
      (∀ ops, OpsA seq1 seq2 ops → levenshtein seq1 seq2 ≤ ops.length) ∧
      (seq1 = seq2 → levenshtein seq1 seq2 = 0) ∧
      (seq1 = [] → levenshtein seq1 seq2 = seq2.length) ∧
      (seq2 = [] → levenshtein seq1 seq2 = seq1.length) := by
  rw [levenshtein_eq_lev]
  refine ⟨?_, ?_, ?_, ?_, ?_⟩
  · obtain ⟨ops, hops, hlen⟩ := exists_opsAP_lev seq1 seq2
    exact ⟨ops, hops.toOpsA, hlen⟩
  · intro ops hops
    exact lev_le_of_opsA hops
  · rintro rfl
    exact lev_refl seq1
  · rintro rfl
    exact lev_nil seq2
  · rintro rfl
    exact lev_nil_right seq1

theorem C2_levenshtein_min_edits_witness :
    levenshtein (['a'] : List Char) ['b'] ≤ [Op.r].length ∧
      levenshtein (['a', 'b'] : List Char) [] = 2 :=
  ⟨(C2_levenshtein_min_edits ['a'] ['b']).2.1 [Op.r] (.sub .nil),
   (C2_levenshtein_min_edits ['a', 'b'] []).2.2.2.2 rfl⟩

/-! ## Structure of short edit scripts

Decompositions of one- and two-operation scripts, and the exchange
lemma: when the two heads agree, a short script can be replaced, after
consuming the common head, by a prefix-compatible script. -/

lemma opsAP_d_elim {a b : List α} (h : OpsAP a b [Op.d]) :
    ∃ p z s, a = p ++ z :: s ∧ b = p ++ s := by
  generalize hops : [Op.d] = ops at h
  induction h with
  | nil => exact absurd hops (by simp)
  | keep h ih =>
      obtain ⟨p, z, s, ha, hb⟩ := ih hops
      subst ha; subst hb
      exact ⟨_ :: p, z, s, rfl, rfl⟩
  | del h ih =>
      rename_i x xs ys ops
      have hnil : ops = [] := by injection hops with h1 h2; exact h2.symm
      subst hnil
      rw [opsAP_nil_elim h]
      exact ⟨[], x, ys, rfl, rfl⟩
  | ins _ ih => exact absurd hops (by simp)
  | sub _ _ ih => exact absurd hops (by simp)

lemma opsAP_i_elim {a b : List α} (h : OpsAP a b [Op.i]) :
    ∃ p y s, a = p ++ s ∧ b = p ++ y :: s := by
  generalize hops : [Op.i] = ops at h
  induction h with
  | nil => exact absurd hops (by simp)
  | keep h ih =>
      obtain ⟨p, y, s, ha, hb⟩ := ih hops
      subst ha; subst hb
      exact ⟨_ :: p, y, s, rfl, rfl⟩
  | del _ ih => exact absurd hops (by simp)
  | ins h ih =>
      rename_i y xs ys ops
      have hnil : ops = [] := by injection hops with h1 h2; exact h2.symm
      subst hnil
      rw [← opsAP_nil_elim h]
      exact ⟨[], y, xs, rfl, rfl⟩
  | sub _ _ ih => exact absurd hops (by simp)

lemma opsAP_r_elim {a b : List α} (h : OpsAP a b [Op.r]) :
    ∃ p u v s, u ≠ v ∧ a = p ++ u :: s ∧ b = p ++ v :: s := by
  generalize hops : [Op.r] = ops at h
  induction h with
  | nil => exact absurd hops (by simp)
  | keep h ih =>
      obtain ⟨p, u, v, s, huv, ha, hb⟩ := ih hops
      subst ha; subst hb
      exact ⟨_ :: p, u, v, s, huv, rfl, rfl⟩
  | del _ ih => exact absurd hops (by simp)
  | ins _ ih => exact absurd hops (by simp)
  | sub huv h ih =>
      rename_i x y xs ys ops
      have hnil : ops = [] := by injection hops with h1 h2; exact h2.symm
      subst hnil
      rw [opsAP_nil_elim h]
      exact ⟨[], x, y, ys, huv, rfl, rfl⟩

/-- Exchange lemma for scripts of length at most two: consuming an
agreeing pair of heads by a copy leaves a residual alignment whose
script is a prefix of the original one. -/
lemma opsAP_exchange {x : α} {a b : List α} {ops : List Op}
    (h : OpsAP (x :: a) (x :: b) ops) (hlen : ops.length ≤ 2) :
    ∃ ops', ops' <+: ops ∧ OpsAP a b ops' := by
  cases h with
  | keep h => exact ⟨ops, List.prefix_rfl, h⟩
  | sub hxy h => exact absurd rfl hxy
  | del h =>
      rename_i t
      cases t with
      | nil =>
          rw [opsAP_nil_elim h]
          exact ⟨[Op.d], List.prefix_rfl, .del (opsAP_refl b)⟩
      | cons o t' =>
          cases t' with
          | cons _ _ => simp at hlen
          | nil =>
              cases o with
              | d =>
                  obtain ⟨p, z, s, ha, hb⟩ := opsAP_d_elim h
                  cases p with
                  | nil =>
                      simp only [List.nil_append] at ha hb
                      subst ha
                      rw [← hb]
                      exact ⟨[Op.d, Op.d], List.prefix_rfl, .del (.del (opsAP_refl b))⟩
                  | cons w p' =>
                      simp only [List.cons_append, List.cons.injEq] at hb
                      obtain ⟨hxw, hb'⟩ := hb
                      subst ha; subst hb'; subst hxw
                      exact ⟨[Op.d, Op.d], List.prefix_rfl,
                        .del (opsAP_keeps p' (.del (opsAP_refl s)))⟩
              | i =>
                  obtain ⟨p, y, s, ha, hb⟩ := opsAP_i_elim h
                  cases p with
                  | nil =>
                      simp only [List.nil_append, List.cons.injEq] at hb
                      obtain ⟨hxy, hb'⟩ := hb
                      subst ha; subst hb'
                      exact ⟨[], ⟨[Op.d, Op.i], rfl⟩, opsAP_refl b⟩
                  | cons w p' =>
                      simp only [List.cons_append, List.cons.injEq] at hb
                      obtain ⟨hxw, hb'⟩ := hb
                      subst ha; subst hb'; subst hxw
                      exact ⟨[Op.d, Op.i], List.prefix_rfl,
                        .del (opsAP_keeps p' (.ins (opsAP_refl s)))⟩
              | r =>
                  obtain ⟨p, u, v, s, huv, ha, hb⟩ := opsAP_r_elim h
                  cases p with
                  | nil =>
                      simp only [List.nil_append, List.cons.injEq] at hb
                      obtain ⟨hxv, hb'⟩ := hb
                      subst ha; subst hb'
                      exact ⟨[Op.d], ⟨[Op.r], rfl⟩, .del (opsAP_refl b)⟩
                  | cons w p' =>
                      simp only [List.cons_append, List.cons.injEq] at hb
                      obtain ⟨hxw, hb'⟩ := hb
                      subst ha; subst hb'; subst hxw
                      exact ⟨[Op.d, Op.r], List.prefix_rfl,
                        .del (opsAP_keeps p' (.sub huv (opsAP_refl s)))⟩
  | ins h =>
      rename_i t
      cases t with
      | nil =>
          rw [← opsAP_nil_elim h]
          exact ⟨[Op.i], List.prefix_rfl, .ins (opsAP_refl a)⟩
      | cons o t' =>
          cases t' with
          | cons _ _ => simp at hlen
          | nil =>
              cases o with
              | d =>
                  obtain ⟨p, z, s, ha, hb⟩ := opsAP_d_elim h
                  cases p with
                  | nil =>
                      simp only [List.nil_append, List.cons.injEq] at ha
                      obtain ⟨hxz, ha'⟩ := ha
                      subst hb; subst ha'
                      exact ⟨[], ⟨[Op.i, Op.d], rfl⟩, opsAP_refl a⟩
                  | cons w p' =>
                      simp only [List.cons_append, List.cons.injEq] at ha
                      obtain ⟨hxw, ha'⟩ := ha
                      subst hb; subst ha'; subst hxw
                      exact ⟨[Op.i, Op.d], List.prefix_rfl,
                        .ins (opsAP_keeps p' (.del (opsAP_refl s)))⟩
              | i =>
                  obtain ⟨p, y, s, ha, hb⟩ := opsAP_i_elim h
                  cases p with
                  | nil =>
                      simp only [List.nil_append] at ha hb
                      subst hb
                      rw [← ha]
                      exact ⟨[Op.i, Op.i], List.prefix_rfl, .ins (.ins (opsAP_refl a))⟩
                  | cons w p' =>
                      simp only [List.cons_append, List.cons.injEq] at ha
                      obtain ⟨hxw, ha'⟩ := ha
                      subst hb; subst ha'; subst hxw
                      exact ⟨[Op.i, Op.i], List.prefix_rfl,
                        .ins (opsAP_keeps p' (.ins (opsAP_refl s)))⟩
              | r =>
                  obtain ⟨p, u, v, s, huv, ha, hb⟩ := opsAP_r_elim h
                  cases p with
                  | nil =>
                      simp only [List.nil_append, List.cons.injEq] at ha
                      obtain ⟨hxu, ha'⟩ := ha
                      subst hb; subst ha'
                      exact ⟨[Op.i], ⟨[Op.r], rfl⟩, .ins (opsAP_refl a)⟩
                  | cons w p' =>
                      simp only [List.cons_append, List.cons.injEq] at ha
                      obtain ⟨hxw, ha'⟩ := ha
                      subst hb; subst ha'; subst hxw
                      exact ⟨[Op.i, Op.r], List.prefix_rfl,
                        .ins (opsAP_keeps p' (.sub huv (opsAP_refl s)))⟩

/-! ## Unfolding equations of the bounded walk -/

lemma walk_nil_nil (t : Bool) (ld : ℕ) (rem : List Op) (c : ℕ) :
    walk t ld ([] : List α) [] rem c = some c := by
  rw [walk.eq_def]

lemma walk_cons_nil (t : Bool) (ld : ℕ) (x : α) (a : List α) (rem : List Op) (c : ℕ) :
    walk t ld (x :: a) [] rem c
      = if (x :: a).length ≤ rem.count Op.d then some (c + (x :: a).length) else none := by
  rw [walk.eq_def]

lemma walk_nil_cons (t : Bool) (ld : ℕ) (y : α) (b : List α) (rem : List Op) (c : ℕ) :
    walk t ld ([] : List α) (y :: b) rem c
      = if (y :: b).length ≤ rem.count Op.i then some (c + (y :: b).length) else none := by
  rw [walk.eq_def]

lemma walk_keep (t : Bool) (ld : ℕ) (x : α) (a b : List α) (rem : List Op) (c : ℕ) :
    walk t ld (x :: a) (x :: b) rem c = walk t ld a b rem c := by
  rw [walk.eq_def]
  simp

lemma walk_break (t : Bool) (ld : ℕ) {x y : α} (a b : List α) (rem : List Op) {c : ℕ}
    (hxy : x ≠ y) (hc : 2 < c + 1) :
    walk t ld (x :: a) (y :: b) rem c = none := by
  rw [walk.eq_def]
  dsimp only
  rw [if_neg hxy, if_pos hc]

lemma walk_mismatch_d (t : Bool) (ld : ℕ) {x y : α} (a b : List α) (rem' : List Op) {c : ℕ}
    (hxy : x ≠ y) (hc : c + 1 ≤ 2)
    (htr : ¬(t = true ∧ ld ≠ 2 ∧ a.head? = some y ∧ b.head? = some x)) :
    walk t ld (x :: a) (y :: b) (Op.d :: rem') c = walk t ld a (y :: b) rem' (c + 1) := by
  rw [walk.eq_def]
  dsimp only
  rw [if_neg hxy, if_neg (by omega), if_neg htr]

lemma walk_mismatch_i (t : Bool) (ld : ℕ) {x y : α} (a b : List α) (rem' : List Op) {c : ℕ}
    (hxy : x ≠ y) (hc : c + 1 ≤ 2)
    (htr : ¬(t = true ∧ ld ≠ 2 ∧ a.head? = some y ∧ b.head? = some x)) :
    walk t ld (x :: a) (y :: b) (Op.i :: rem') c = walk t ld (x :: a) b rem' (c + 1) := by
  rw [walk.eq_def]
  dsimp only
  rw [if_neg hxy, if_neg (by omega), if_neg htr]

lemma walk_mismatch_r (t : Bool) (ld : ℕ) {x y : α} (a b : List α) (rem' : List Op) {c : ℕ}
    (hxy : x ≠ y) (hc : c + 1 ≤ 2)
    (htr : ¬(t = true ∧ ld ≠ 2 ∧ a.head? = some y ∧ b.head? = some x)) :
    walk t ld (x :: a) (y :: b) (Op.r :: rem') c = walk t ld a b rem' (c + 1) := by
  rw [walk.eq_def]
  dsimp only
  rw [if_neg hxy, if_neg (by omega), if_neg htr]

lemma walk_mismatch_empty (t : Bool) (ld : ℕ) {x y : α} (a b : List α) {c : ℕ}
    (hxy : x ≠ y) (hc : c + 1 ≤ 2)
    (htr : ¬(t = true ∧ ld ≠ 2 ∧ a.head? = some y ∧ b.head? = some x)) :
    walk t ld (x :: a) (y :: b) [] c = walk t ld a b [] (c + 1) := by
  rw [walk.eq_def]
  dsimp only
  rw [if_neg hxy, if_neg (by omega), if_neg htr]

/-- With transpositions off, the transposition guard is always false. -/
lemma no_transposition (ld : ℕ) (a b : List α) (y x : α) :
    ¬(false = true ∧ ld ≠ 2 ∧ a.head? = some y ∧ b.head? = some x) := by
  simp

/-! ## Simulation: a short alignment guides the walk -/

/-- If a proper script of total cost within budget exists and the
model begins with that script, the walk (without transpositions)
succeeds and reports at most the script's cost. -/
lemma walkSim (ld : ℕ) (a b : List α) (ops : List Op) (h : OpsAP a b ops) :
    ∀ (ext : List Op) (c : ℕ), c + ops.length ≤ 2 →
      ∃ v, v ≤ c + ops.length ∧ walk false ld a b (ops ++ ext) c = some v := by
  generalize hn : a.length + b.length = n
  induction n using Nat.strong_induction_on generalizing a b ops with
  | _ n ih =>
      intro ext c hc
      cases a with
      | nil =>
          cases b with
          | nil => exact ⟨c, Nat.le_add_right .., walk_nil_nil ..⟩
          | cons y b' =>
              have hops := opsAP_left_nil_elim h
              have hcount : (y :: b').length
                  ≤ ((List.replicate (y :: b').length Op.i) ++ ext).count Op.i := by
                rw [List.count_append, List.count_replicate]
                simp
              refine ⟨c + (y :: b').length, by rw [hops]; simp, ?_⟩
              rw [walk_nil_cons, hops, if_pos hcount]
      | cons x a' =>
          cases b with
          | nil =>
              have hops := opsAP_right_nil_elim h
              have hcount : (x :: a').length
                  ≤ ((List.replicate (x :: a').length Op.d) ++ ext).count Op.d := by
                rw [List.count_append, List.count_replicate]
                simp
              refine ⟨c + (x :: a').length, by rw [hops]; simp, ?_⟩
              rw [walk_cons_nil, hops, if_pos hcount]
          | cons y b' =>
              by_cases hxy : x = y
              · subst hxy
                obtain ⟨ops', hpre, hops'⟩ := opsAP_exchange h (by omega)
                obtain ⟨tl, htl⟩ := hpre
                have hlen' : ops'.length ≤ ops.length := by
                  rw [← htl]; simp
                rw [walk_keep, show ops ++ ext = ops' ++ (tl ++ ext) by
                  rw [← htl, List.append_assoc]]
                obtain ⟨v, hv, hw⟩ := ih (a'.length + b'.length)
                  (by simp at hn; omega) a' b' ops' hops' rfl (tl ++ ext) c (by omega)
                exact ⟨v, by omega, hw⟩
              · cases h with
                | keep h => exact absurd rfl hxy
                | del h =>
                    rename_i t0
                    rw [show (Op.d :: t0) ++ ext = Op.d :: (t0 ++ ext) from rfl,
                      walk_mismatch_d false ld a' b' (t0 ++ ext) hxy
                        (by simp at hc; omega) (by simp)]
                    obtain ⟨v, hv, hw⟩ := ih (a'.length + (y :: b').length)
                      (by simp at hn ⊢; omega) a' (y :: b') t0 h rfl ext (c + 1)
                      (by simp at hc; omega)
                    exact ⟨v, by simp at hc hv ⊢; omega, hw⟩
                | ins h =>
                    rename_i t0
                    rw [show (Op.i :: t0) ++ ext = Op.i :: (t0 ++ ext) from rfl,
                      walk_mismatch_i false ld a' b' (t0 ++ ext) hxy
                        (by simp at hc; omega) (by simp)]
                    obtain ⟨v, hv, hw⟩ := ih ((x :: a').length + b'.length)
                      (by simp at hn ⊢; omega) (x :: a') b' t0 h rfl ext (c + 1)
                      (by simp at hc; omega)
                    exact ⟨v, by simp at hc hv ⊢; omega, hw⟩
                | sub hxy' h =>
                    rename_i t0
                    rw [show (Op.r :: t0) ++ ext = Op.r :: (t0 ++ ext) from rfl,
                      walk_mismatch_r false ld a' b' (t0 ++ ext) hxy
                        (by simp at hc; omega) (by simp)]
                    obtain ⟨v, hv, hw⟩ := ih (a'.length + b'.length)
                      (by simp at hn ⊢; omega) a' b' t0 h rfl ext (c + 1)
                      (by simp at hc; omega)
                    exact ⟨v, by simp at hc hv ⊢; omega, hw⟩

/-! ## Soundness: a successful walk yields an alignment -/

/-- Any value reported by the walk (without transpositions) is the
cost of a proper edit script between the remaining suffixes. -/
lemma walkSound (ld : ℕ) (a b : List α) (rem : List Op) (c : ℕ) :
    ∀ v, walk false ld a b rem c = some v →
      ∃ ops, OpsAP a b ops ∧ v = c + ops.length := by
  refine walk.induct false ld
    (motive := fun a b rem c => ∀ v, walk false ld a b rem c = some v →
      ∃ ops, OpsAP a b ops ∧ v = c + ops.length)
    ?_ ?_ ?_ ?_ ?_ ?_ ?_ ?_ ?_ ?_ ?_ ?_ a b rem c
  · intro rem c v hv
    rw [walk_nil_nil] at hv
    exact ⟨[], .nil, by simpa using hv.symm⟩
  · intro x a rem c hcnt v hv
    rw [walk_cons_nil, if_pos hcnt] at hv
    refine ⟨List.replicate (x :: a).length Op.d, opsAP_nil_right _, ?_⟩
    simpa using hv.symm
  · intro x a rem c hcnt v hv
    rw [walk_cons_nil, if_neg hcnt] at hv
    cases hv
  · intro y b rem c hcnt v hv
    rw [walk_nil_cons, if_pos hcnt] at hv
    refine ⟨List.replicate (y :: b).length Op.i, opsAP_nil_left _, ?_⟩
    simpa using hv.symm
  · intro y b rem c hcnt v hv
    rw [walk_nil_cons, if_neg hcnt] at hv
    cases hv
  · intro a y b rem c ih v hv
    rw [walk_keep] at hv
    obtain ⟨ops, hops, hv'⟩ := ih v hv
    exact ⟨ops, .keep hops, hv'⟩
  · intro x a y b rem c hxy hbr v hv
    rw [walk_break _ _ _ _ _ hxy hbr] at hv
    cases hv
  · intro x a y b rem c hxy hbr htr ih v hv
    exact absurd htr.1 (by simp)
  · intro x a y b c hxy hbr htr rem' ih v hv
    rw [walk_mismatch_d false ld a b rem' hxy (by omega) htr] at hv
    obtain ⟨ops, hops, hv'⟩ := ih v hv
    exact ⟨Op.d :: ops, .del hops, by simp [hv']; omega⟩
  · intro x a y b c hxy hbr htr rem' ih v hv
    rw [walk_mismatch_i false ld a b rem' hxy (by omega) htr] at hv
    obtain ⟨ops, hops, hv'⟩ := ih v hv
    exact ⟨Op.i :: ops, .ins hops, by simp [hv']; omega⟩
  · intro x a y b c hxy hbr htr rem' ih v hv
    rw [walk_mismatch_r false ld a b rem' hxy (by omega) htr] at hv
    obtain ⟨ops, hops, hv'⟩ := ih v hv
    exact ⟨Op.r :: ops, .sub hxy hops, by simp [hv']; omega⟩
  · intro x a y b c hxy hbr htr ih v hv
    rw [walk_mismatch_empty false ld a b hxy (by omega) htr] at hv
    obtain ⟨ops, hops, hv'⟩ := ih v hv
    exact ⟨Op.r :: ops, .sub hxy hops, by simp [hv']; omega⟩

/-- The length difference is a lower bound on `lev`. -/
lemma sub_length_le_lev (s1 s2 : List α) : s1.length - s2.length ≤ lev s1 s2 := by
  obtain ⟨ops, hops, hlen⟩ := exists_opsAP_lev s1 s2
  have hcnt := opsAP_count hops
  have hd : ops.count Op.d ≤ ops.length := List.count_le_length ..
  omega

/-- Completeness of the model choice: some tried model reports at most
the true distance. -/
lemma existsModel (s1 s2 : List α) (hle : s2.length ≤ s1.length) (h2 : lev s1 s2 ≤ 2) :
    ∃ m ∈ modelsFor (s1.length - s2.length),
      ∃ v ≤ lev s1 s2, walk false (s1.length - s2.length) s1 s2 m 0 = some v := by
  obtain ⟨ops, hops, hlen⟩ := exists_opsAP_lev s1 s2
  have hcnt := opsAP_count hops
  have main : ∀ (m : List Op) (ext : List Op), ops ++ ext = m →
      ∃ v ≤ lev s1 s2, walk false (s1.length - s2.length) s1 s2 m 0 = some v := by
    intro m ext hm
    obtain ⟨v, hv, hw⟩ := walkSim (s1.length - s2.length) s1 s2 ops hops ext 0 (by omega)
    rw [hm] at hw
    exact ⟨v, by omega, hw⟩
  rcases ops with _ | ⟨o1, _ | ⟨o2, _ | ⟨o3, tl⟩⟩⟩
  · simp only [List.count_nil, List.length_nil] at hcnt hlen
    refine ⟨[Op.i, Op.d], ?_, main _ [Op.i, Op.d] rfl⟩
    rw [show s1.length - s2.length = 0 by omega]
    simp [modelsFor]
  · cases o1
    · simp [List.count_cons] at hcnt hlen
      refine ⟨[Op.r, Op.r], ?_, main _ [Op.r] rfl⟩
      rw [show s1.length - s2.length = 0 by omega]
      simp [modelsFor]
    · simp [List.count_cons] at hcnt hlen
      omega
    · simp [List.count_cons] at hcnt hlen
      refine ⟨[Op.d, Op.r], ?_, main _ [Op.r] rfl⟩
      rw [show s1.length - s2.length = 1 by omega]
      simp [modelsFor]
  · cases o1 <;> cases o2 <;> simp [List.count_cons] at hcnt hlen
    · -- r r
      refine ⟨[Op.r, Op.r], ?_, main _ [] (by simp)⟩
      rw [show s1.length - s2.length = 0 by omega]
      simp [modelsFor]
    · -- r i
      omega
    · -- r d
      refine ⟨[Op.r, Op.d], ?_, main _ [] (by simp)⟩
      rw [show s1.length - s2.length = 1 by omega]
      simp [modelsFor]
    · -- i r
      omega
    · -- i i
      omega
    · -- i d
      refine ⟨[Op.i, Op.d], ?_, main _ [] (by simp)⟩
      rw [show s1.length - s2.length = 0 by omega]
      simp [modelsFor]
    · -- d r
      refine ⟨[Op.d, Op.r], ?_, main _ [] (by simp)⟩
      rw [show s1.length - s2.length = 1 by omega]
      simp [modelsFor]
    · -- d i
      refine ⟨[Op.d, Op.i], ?_, main _ [] (by simp)⟩
      rw [show s1.length - s2.length = 0 by omega]
      simp [modelsFor]
    · -- d d
      refine ⟨[Op.d, Op.d], ?_, main _ [] (by simp)⟩
      rw [show s1.length - s2.length = 2 by omega]
      simp [modelsFor]
  · simp at hlen
    omega

/-- The two halves of C1 over an already length-ordered pair. -/
lemma fast_comp_core (s1 s2 : List α) (hle : s2.length ≤ s1.length) :
    (2 < lev s1 s2 →
        (if 2 < s1.length - s2.length then (-1 : ℤ)
         else if runModels false (s1.length - s2.length) s1 s2
             (modelsFor (s1.length - s2.length)) = 3 then -1
           else (runModels false (s1.length - s2.length) s1 s2
             (modelsFor (s1.length - s2.length)) : ℤ)) = -1) ∧
      (lev s1 s2 ≤ 2 →
        (if 2 < s1.length - s2.length then (-1 : ℤ)
         else if runModels false (s1.length - s2.length) s1 s2
             (modelsFor (s1.length - s2.length)) = 3 then -1
           else (runModels false (s1.length - s2.length) s1 s2
             (modelsFor (s1.length - s2.length)) : ℤ)) = (lev s1 s2 : ℤ)) := by
  have hres3 := runModels_le false (s1.length - s2.length) s1 s2
    (modelsFor (s1.length - s2.length))
  have hAtt := foldl_resStep_attained false (s1.length - s2.length) s1 s2
    (modelsFor (s1.length - s2.length)) 3
  rw [← runModels_eq] at hAtt
  constructor
  · intro hgt
    by_cases hld : 2 < s1.length - s2.length
    · rw [if_pos hld]
    · rw [if_neg hld]
      by_cases h3 : runModels false (s1.length - s2.length) s1 s2
          (modelsFor (s1.length - s2.length)) = 3
      · rw [if_pos h3]
      · exfalso
        rcases hAtt with hr | ⟨m, hm, hw⟩
        · exact h3 hr
        · obtain ⟨ops, hops, hv⟩ := walkSound (s1.length - s2.length) s1 s2 m 0 _ hw
          have hlelev : lev s1 s2 ≤ runModels false (s1.length - s2.length) s1 s2
              (modelsFor (s1.length - s2.length)) := by
            rw [hv]
            simpa using lev_le_of_opsA hops.toOpsA
          omega
  · intro hle2
    have hldle : s1.length - s2.length ≤ lev s1 s2 := sub_length_le_lev s1 s2
    rw [if_neg (by omega)]
    obtain ⟨m, hm, v, hv, hw⟩ := existsModel s1 s2 hle hle2
    have hresle : runModels false (s1.length - s2.length) s1 s2
        (modelsFor (s1.length - s2.length)) ≤ v := by
      rw [runModels_eq]
      exact foldl_resStep_le_of_mem false (s1.length - s2.length) s1 s2 _ 3 m v hm hw
    rw [if_neg (by omega)]
    rcases hAtt with hr | ⟨m', hm', hw'⟩
    · omega
    · obtain ⟨ops, hops, hveq⟩ := walkSound (s1.length - s2.length) s1 s2 m' 0 _ hw'
      have hge : lev s1 s2 ≤ runModels false (s1.length - s2.length) s1 s2
          (modelsFor (s1.length - s2.length)) := by
        rw [hveq]
        simpa using lev_le_of_opsA hops.toOpsA
      have : runModels false (s1.length - s2.length) s1 s2
          (modelsFor (s1.length - s2.length)) = lev s1 s2 := by omega
      rw [this]

/-! ## C1 -/

/-- C1: with `transpositions=False`, `fast_comp` returns the sentinel
`-1` exactly when the Levenshtein distance exceeds 2, and the exact
Levenshtein distance otherwise. -/
theorem C1_fast_comp_refines_levenshtein (str1 str2 : List α) :
    (2 < levenshtein str1 str2 → fast_comp str1 str2 false = -1) ∧
      (levenshtein str1 str2 ≤ 2 →
        fast_comp str1 str2 false = (levenshtein str1 str2 : ℤ)) := by
  rw [levenshtein_eq_lev]
  simp only [fast_comp]
  by_cases hswap : str1.length < str2.length
  · simp only [if_pos hswap]
    rw [lev_comm str1 str2]
    exact fast_comp_core str2 str1 (le_of_lt hswap)
  · simp only [if_neg hswap]
    exact fast_comp_core str1 str2 (by omega)

theorem C1_fast_comp_refines_levenshtein_witness :
    fast_comp (['a', 'b'] : List Char) ['b', 'a'] false
        = (levenshtein (['a', 'b'] : List Char) ['b', 'a'] : ℤ) ∧
      fast_comp (['a', 'b', 'c'] : List Char) ['x', 'y', 'z'] false = -1 :=
  ⟨(C1_fast_comp_refines_levenshtein ['a', 'b'] ['b', 'a']).2 (by decide),
   (C1_fast_comp_refines_levenshtein ['a', 'b', 'c'] ['x', 'y', 'z']).1 (by decide)⟩

/-! ## Longest common substrings: the cell values of the DP

`cellVal a b i j` is the length of the longest common suffix of the
prefixes of `a` and `b` ending at positions `i` and `j`; this is the
value the inner loop stores in `column[j]` in row `i`. -/

/-- Longest common prefix length. -/
def lcp : List α → List α → ℕ
  | x :: xs, y :: ys => if x = y then lcp xs ys + 1 else 0
  | _, _ => 0

/-- Longest common suffix length. -/
def lcsuf (xs ys : List α) : ℕ := lcp xs.reverse ys.reverse

def cellVal (a b : List α) (i j : ℕ) : ℕ := lcsuf (a.take (i + 1)) (b.take (j + 1))

lemma lcp_le_left : ∀ (xs ys : List α), lcp xs ys ≤ xs.length := by
  intro xs
  induction xs with
  | nil => intro ys; rw [lcp.eq_def]; cases ys <;> simp
  | cons x xs ih =>
      intro ys
      cases ys with
      | nil => rw [lcp.eq_def]; simp
      | cons y ys =>
          rw [lcp.eq_def]
          dsimp only
          split
          · simpa using ih ys
          · simp

lemma lcp_le_right : ∀ (xs ys : List α), lcp xs ys ≤ ys.length := by
  intro xs
  induction xs with
  | nil => intro ys; rw [lcp.eq_def]; cases ys <;> simp
  | cons x xs ih =>
      intro ys
      cases ys with
      | nil => rw [lcp.eq_def]; simp
      | cons y ys =>
          rw [lcp.eq_def]
          dsimp only
          split
          · simpa using ih ys
          · simp

lemma le_lcp_append (r : List α) : ∀ (u v : List α), r.length ≤ lcp (r ++ u) (r ++ v) := by
  induction r with
  | nil => intro u v; simp
  | cons z r ih =>
      intro u v
      rw [List.cons_append, List.cons_append, lcp.eq_def]
      dsimp only
      rw [if_pos rfl]
      simpa using ih u v

lemma lcp_take_eq : ∀ (xs ys : List α), xs.take (lcp xs ys) = ys.take (lcp xs ys) := by
  intro xs
  induction xs with
  | nil => intro ys; rw [lcp.eq_def]; cases ys <;> simp
  | cons x xs ih =>
      intro ys
      cases ys with
      | nil => rw [lcp.eq_def]; simp
      | cons y ys =>
          rw [lcp.eq_def]
          dsimp only
          by_cases hxy : x = y
          · rw [if_pos hxy, List.take_succ_cons, List.take_succ_cons, ih ys, hxy]
          · rw [if_neg hxy]
            simp

lemma lcp_mono_take (m : ℕ) : ∀ (xs ys : List α), m ≤ lcp xs ys →
    xs.take m = ys.take m := by
  intro xs ys h
  have h1 := lcp_take_eq xs ys
  have h2 : xs.take m = (xs.take (lcp xs ys)).take m := by
    rw [List.take_take, Nat.min_eq_left h]
  have h3 : ys.take m = (ys.take (lcp xs ys)).take m := by
    rw [List.take_take, Nat.min_eq_left h]
  rw [h2, h3, h1]

lemma lcsuf_le_left (xs ys : List α) : lcsuf xs ys ≤ xs.length := by
  simpa using lcp_le_left xs.reverse ys.reverse

lemma lcsuf_le_right (xs ys : List α) : lcsuf xs ys ≤ ys.length := by
  simpa using lcp_le_right xs.reverse ys.reverse

lemma lcsuf_nil_left (ys : List α) : lcsuf [] ys = 0 :=
  Nat.le_zero.mp (by simpa using lcsuf_le_left [] ys)

lemma lcsuf_nil_right (xs : List α) : lcsuf xs [] = 0 :=
  Nat.le_zero.mp (by simpa using lcsuf_le_right xs [])

lemma lcsuf_snoc_eq (x : α) (u v : List α) :
    lcsuf (u ++ [x]) (v ++ [x]) = lcsuf u v + 1 := by
  unfold lcsuf
  simp only [List.reverse_append, List.reverse_cons, List.reverse_nil, List.nil_append,
    List.singleton_append]
  rw [lcp.eq_def]
  simp

lemma lcsuf_snoc_ne {x y : α} (hxy : x ≠ y) (u v : List α) :
    lcsuf (u ++ [x]) (v ++ [y]) = 0 := by
  unfold lcsuf
  simp only [List.reverse_append, List.reverse_cons, List.reverse_nil, List.nil_append,
    List.singleton_append]
  rw [lcp.eq_def]
  simp [hxy]

/-- A common suffix is no longer than the longest common suffix. -/
lemma suffix_le_lcsuf {s xs ys : List α} (h1 : s <:+ xs) (h2 : s <:+ ys) :
    s.length ≤ lcsuf xs ys := by
  obtain ⟨u, hu⟩ := h1
  obtain ⟨v, hv⟩ := h2
  subst hu; subst hv
  unfold lcsuf
  simp only [List.reverse_append]
  simpa using le_lcp_append s.reverse u.reverse v.reverse

/-- The two sequences agree on their last `m` elements whenever
`m ≤ lcsuf`. -/
lemma lcsuf_drop_eq {m : ℕ} {xs ys : List α} (h : m ≤ lcsuf xs ys) :
    xs.drop (xs.length - m) = ys.drop (ys.length - m) := by
  have h1 := lcp_mono_take m xs.reverse ys.reverse (by simpa [lcsuf] using h)
  have h2 : (xs.reverse.take m).reverse = xs.drop (xs.length - m) := by
    rw [List.reverse_take]
    simp
  have h3 : (ys.reverse.take m).reverse = ys.drop (ys.length - m) := by
    rw [List.reverse_take]
    simp
  rw [← h2, ← h3, h1]

lemma cellVal_le_i (a b : List α) (i j : ℕ) : cellVal a b i j ≤ i + 1 :=
  le_trans (lcsuf_le_left ..) (by simpa using List.length_take_le (i + 1) a)

lemma cellVal_le_j (a b : List α) (i j : ℕ) : cellVal a b i j ≤ j + 1 :=
  le_trans (lcsuf_le_right ..) (by simpa using List.length_take_le (j + 1) b)

/-- The recurrence of the DP at a matching cell. -/
lemma cellVal_match {a b : List α} {i j : ℕ} {x : α}
    (hx : a.get? i = some x) (hy : b.get? j = some x) :
    cellVal a b i j = lcsuf (a.take i) (b.take j) + 1 := by
  unfold cellVal
  rw [List.take_succ, List.take_succ]
  rw [show a[i]? = some x from by simpa [← List.get?_eq_getElem?] using hx,
    show b[j]? = some x from by simpa [← List.get?_eq_getElem?] using hy]
  exact lcsuf_snoc_eq ..

/-- The recurrence of the DP at a mismatching cell. -/
lemma cellVal_mismatch {a b : List α} {i j : ℕ} {x y : α}
    (hx : a.get? i = some x) (hy : b.get? j = some y) (hxy : x ≠ y) :
    cellVal a b i j = 0 := by
  unfold cellVal
  rw [List.take_succ, List.take_succ]
  rw [show a[i]? = some x from by simpa [← List.get?_eq_getElem?] using hx,
    show b[j]? = some y from by simpa [← List.get?_eq_getElem?] using hy]
  exact lcsuf_snoc_ne hxy ..

/-! ## The loop invariant of `lcsubstrings` -/

/-- The cells scanned strictly before `(i, j)` in row-major order. -/
def inC (b : List α) (i j p q : ℕ) : Prop :=
  q < b.length ∧ (p < i ∨ (p = i ∧ q < j))

/-- The invariant tying the state `(ms, mlen)` to the scanned cells:
`mlen` is the maximum cell value so far (`0` if none is positive),
attained on a scanned cell unless it is `0`, and `ms` holds exactly
the scanned cells of value `mlen` (none when `mlen = 0`). -/
def INV (a b : List α) (i j : ℕ) (ms : List (ℕ × ℕ)) (mlen : ℕ) : Prop :=
  (∀ p q, inC b i j p q → cellVal a b p q ≤ mlen) ∧
    (mlen = 0 ∨ ∃ p q, inC b i j p q ∧ cellVal a b p q = mlen) ∧
    (∀ p q, (p, q) ∈ ms ↔ inC b i j p q ∧ cellVal a b p q = mlen ∧ 1 ≤ mlen)

lemma INV_congr {a b : List α} {i j i' j' : ℕ} {ms : List (ℕ × ℕ)} {mlen : ℕ}
    (h : ∀ p q, inC b i j p q ↔ inC b i' j' p q)
    (hinv : INV a b i j ms mlen) : INV a b i' j' ms mlen := by
  obtain ⟨h1, h2, h3⟩ := hinv
  refine ⟨fun p q hp => h1 p q ((h p q).mpr hp), ?_, fun p q => ?_⟩
  · rcases h2 with h2 | ⟨p, q, hpq, hv⟩
    · left; exact h2
    · right; exact ⟨p, q, (h p q).mp hpq, hv⟩
  · rw [h3 p q]
    constructor
    · rintro ⟨hc, hv⟩; exact ⟨(h p q).mp hc, hv⟩
    · rintro ⟨hc, hv⟩; exact ⟨(h p q).mpr hc, hv⟩

lemma inC_row_end (b : List α) (i : ℕ) (p q : ℕ) :
    inC b i b.length p q ↔ inC b (i + 1) 0 p q := by
  unfold inC; omega

lemma inC_past_end {b : List α} {j : ℕ} (hj : b.length ≤ j) (i p q : ℕ) :
    inC b i j p q ↔ inC b i b.length p q := by
  unfold inC; omega

lemma inC_extend {b : List α} {j : ℕ} (hj : j < b.length) (i p q : ℕ) :
    inC b i (j + 1) p q ↔ (inC b i j p q ∨ (p = i ∧ q = j)) := by
  unfold inC; omega

/-- Extending the invariant past a matching cell, through the
`ms`/`mlen` update of the source. -/
lemma INV_extend_match {a b : List α} {i j : ℕ} (hj : j < b.length)
    {ms : List (ℕ × ℕ)} {mlen v : ℕ} (hinv : INV a b i j ms mlen)
    (hv : cellVal a b i j = v) (hv1 : 1 ≤ v) :
    INV a b i (j + 1)
      (if mlen < v then ([(i, j)], v)
        else if v = mlen then (ms ++ [(i, j)], mlen) else (ms, mlen)).1
      (if mlen < v then ([(i, j)], v)
        else if v = mlen then (ms ++ [(i, j)], mlen) else (ms, mlen)).2 := by
  obtain ⟨h1, h2, h3⟩ := hinv
  by_cases hlt : mlen < v
  · simp only [if_pos hlt]
    refine ⟨?_, ?_, ?_⟩
    · intro p q hpq
      rcases (inC_extend hj i p q).mp hpq with hold | ⟨rfl, rfl⟩
      · exact le_trans (h1 p q hold) (le_of_lt hlt)
      · omega
    · right
      exact ⟨i, j, (inC_extend hj i i j).mpr (Or.inr ⟨rfl, rfl⟩), hv⟩
    · intro p q
      simp only [List.mem_singleton, Prod.mk.injEq]
      constructor
      · rintro ⟨rfl, rfl⟩
        exact ⟨(inC_extend hj _ _ _).mpr (Or.inr ⟨rfl, rfl⟩), hv, hv1⟩
      · rintro ⟨hc, hval, _⟩
        rcases (inC_extend hj i p q).mp hc with hold | ⟨rfl, rfl⟩
        · have := h1 p q hold
          omega
        · exact ⟨rfl, rfl⟩
  · by_cases heq : v = mlen
    · simp only [if_neg hlt, if_pos heq]
      subst heq
      refine ⟨?_, ?_, ?_⟩
      · intro p q hpq
        rcases (inC_extend hj i p q).mp hpq with hold | ⟨rfl, rfl⟩
        · exact h1 p q hold
        · omega
      · right
        exact ⟨i, j, (inC_extend hj i i j).mpr (Or.inr ⟨rfl, rfl⟩), hv⟩
      · intro p q
        rw [List.mem_append, h3 p q]
        simp only [List.mem_singleton, Prod.mk.injEq]
        constructor
        · rintro (⟨hc, hval, hm1⟩ | ⟨rfl, rfl⟩)
          · exact ⟨(inC_extend hj i p q).mpr (Or.inl hc), hval, hm1⟩
          · exact ⟨(inC_extend hj _ _ _).mpr (Or.inr ⟨rfl, rfl⟩), hv, hv1⟩
        · rintro ⟨hc, hval, hm1⟩
          rcases (inC_extend hj i p q).mp hc with hold | ⟨rfl, rfl⟩
          · exact Or.inl ⟨hold, hval, hm1⟩
          · exact Or.inr ⟨rfl, rfl⟩
    · simp only [if_neg hlt, if_neg heq]
      have hvlt : v < mlen := by omega
      refine ⟨?_, ?_, ?_⟩
      · intro p q hpq
        rcases (inC_extend hj i p q).mp hpq with hold | ⟨rfl, rfl⟩
        · exact h1 p q hold
        · omega
      · rcases h2 with h2 | ⟨p, q, hpq, hval⟩
        · left; exact h2
        · right; exact ⟨p, q, (inC_extend hj i p q).mpr (Or.inl hpq), hval⟩
      · intro p q
        rw [h3 p q]
        constructor
        · rintro ⟨hc, hval, hm1⟩
          exact ⟨(inC_extend hj i p q).mpr (Or.inl hc), hval, hm1⟩
        · rintro ⟨hc, hval, hm1⟩
          rcases (inC_extend hj i p q).mp hc with hold | ⟨rfl, rfl⟩
          · exact ⟨hold, hval, hm1⟩
          · omega

/-- Unfolding the inner loop at a matching cell. -/
lemma lcsInner_cons_eq {x y : α} (hxy : x = y) (i j old last mlen : ℕ)
    (col : List ℕ) (bs : List α) (ms : List (ℕ × ℕ)) (v : ℕ)
    (st' : List (ℕ × ℕ) × ℕ)
    (hv : v = if i = 0 ∨ j = 0 then 1 else last + 1)
    (hst : st' = if mlen < v then ([(i, j)], v)
      else if v = mlen then (ms ++ [(i, j)], mlen) else (ms, mlen)) :
    lcsInner x i (old :: col) (y :: bs) j (ms, mlen, last)
      = (v :: (lcsInner x i col bs (j + 1) (st'.1, st'.2, old)).1,
         (lcsInner x i col bs (j + 1) (st'.1, st'.2, old)).2) := by
  subst hv; subst hst
  simp only [lcsInner, if_pos hxy]

/-- Unfolding the inner loop at a mismatching cell. -/
lemma lcsInner_cons_ne {x y : α} (hxy : x ≠ y) (i j old last mlen : ℕ)
    (col : List ℕ) (bs : List α) (ms : List (ℕ × ℕ)) :
    lcsInner x i (old :: col) (y :: bs) j (ms, mlen, last)
      = (0 :: (lcsInner x i col bs (j + 1) (ms, mlen, old)).1,
         (lcsInner x i col bs (j + 1) (ms, mlen, old)).2) := by
  simp only [lcsInner, if_neg hxy]

/-- Extending the invariant past a mismatching cell. -/
lemma INV_extend_miss {a b : List α} {i j : ℕ} (hj : j < b.length)
    {ms : List (ℕ × ℕ)} {mlen : ℕ} (hinv : INV a b i j ms mlen)
    (hv : cellVal a b i j = 0) :
    INV a b i (j + 1) ms mlen := by
  obtain ⟨h1, h2, h3⟩ := hinv
  refine ⟨?_, ?_, ?_⟩
  · intro p q hpq
    rcases (inC_extend hj i p q).mp hpq with hold | ⟨rfl, rfl⟩
    · exact h1 p q hold
    · omega
  · rcases h2 with h2 | ⟨p, q, hpq, hval⟩
    · left; exact h2
    · right; exact ⟨p, q, (inC_extend hj i p q).mpr (Or.inl hpq), hval⟩
  · intro p q
    rw [h3 p q]
    constructor
    · rintro ⟨hc, hval, hm1⟩
      exact ⟨(inC_extend hj i p q).mpr (Or.inl hc), hval, hm1⟩
    · rintro ⟨hc, hval, hm1⟩
      rcases (inC_extend hj i p q).mp hc with hold | ⟨rfl, rfl⟩
      · exact ⟨hold, hval, hm1⟩
      · omega

/-- The inner loop: given the previous row and a valid state, it
writes the current row of cell values and updates the state across the
remaining cells of row `i`. -/
lemma lcsInner_spec (a b : List α) (x : α) (i : ℕ) (hx : a.get? i = some x) :
    ∀ (ys : List α) (j : ℕ) (col : List ℕ) (ms : List (ℕ × ℕ)) (mlen last : ℕ),
      ys = b.drop j →
      col.length = ys.length →
      (i = 0 ∨ ∀ k, k < ys.length → col.get? k = some (cellVal a b (i - 1) (j + k))) →
      (i = 0 ∨ j = 0 ∨ last = cellVal a b (i - 1) (j - 1)) →
      INV a b i j ms mlen →
      ∃ colOut msOut mlenOut lastOut,
        lcsInner x i col ys j (ms, mlen, last) = (colOut, msOut, mlenOut, lastOut) ∧
        colOut.length = ys.length ∧
        (∀ k, k < ys.length → colOut.get? k = some (cellVal a b i (j + k))) ∧
        INV a b i b.length msOut mlenOut := by
  intro ys
  induction ys with
  | nil =>
      intro j col ms mlen last hys hlen hcol hlast hinv
      have hcol0 : col = [] := List.length_eq_zero.mp (by simpa using hlen)
      subst hcol0
      have hj : b.length ≤ j := by
        have := List.drop_eq_nil_iff.mp hys.symm
        omega
      refine ⟨[], ms, mlen, last, rfl, rfl, by simp, ?_⟩
      exact INV_congr (fun p q => inC_past_end hj i p q) hinv
  | cons y ys' ih =>
      intro j col ms mlen last hys hlen hcol hlast hinv
      obtain ⟨old, col', rfl⟩ : ∃ old col', col = old :: col' := by
        cases col with
        | nil => simp at hlen
        | cons o c => exact ⟨o, c, rfl⟩
      have hj : j < b.length := by
        by_contra hj
        push_neg at hj
        rw [List.drop_eq_nil_of_le hj] at hys
        simp at hys
      have hy : b.get? j = some y := by
        have h := List.head?_drop b j
        rw [← hys] at h
        simpa [List.get?_eq_getElem?] using h.symm
      have hys' : ys' = b.drop (j + 1) := by
        have h := List.tail_drop b j
        rw [← hys] at h
        simpa using h
      have hlen' : col'.length = ys'.length := by simpa using hlen
      have hcol' : i = 0 ∨ ∀ k, k < ys'.length →
          col'.get? k = some (cellVal a b (i - 1) ((j + 1) + k)) := by
        rcases hcol with h0 | hcol
        · exact Or.inl h0
        · right
          intro k hk
          have h := hcol (k + 1) (by simpa using Nat.succ_lt_succ hk)
          rw [show j + (k + 1) = (j + 1) + k by omega] at h
          simpa using h
      have hold : i = 0 ∨ old = cellVal a b (i - 1) j := by
        rcases hcol with h0 | hcol
        · exact Or.inl h0
        · right
          have h := hcol 0 (by simp)
          simp at h
          exact h
      by_cases hxy : x = y
      · have hy' : b.get? j = some x := by rw [hxy]; exact hy
        have hv : (if i = 0 ∨ j = 0 then 1 else last + 1) = cellVal a b i j := by
          by_cases hij : i = 0 ∨ j = 0
          · rw [if_pos hij, cellVal_match hx hy']
            rcases hij with h0 | h0 <;> simp [h0, lcsuf_nil_left, lcsuf_nil_right]
          · push_neg at hij
            rcases hlast with h0 | h0 | hlast'
            · exact absurd h0 hij.1
            · exact absurd h0 hij.2
            · rw [if_neg (by tauto), cellVal_match hx hy', hlast']
              unfold cellVal
              rw [show i - 1 + 1 = i by omega, show j - 1 + 1 = j by omega]
        have hv1 : 1 ≤ (if i = 0 ∨ j = 0 then 1 else last + 1) := by
          split <;> omega
        have hinv' := INV_extend_match hj hinv hv.symm hv1
        obtain ⟨colOut', msOut, mlenOut, lastOut, heq, hlen2, hget2, hinv2⟩ :=
          ih (j + 1)  col'
            (if mlen < (if i = 0 ∨ j = 0 then 1 else last + 1)
              then ([(i, j)], (if i = 0 ∨ j = 0 then 1 else last + 1))
              else if (if i = 0 ∨ j = 0 then 1 else last + 1) = mlen
                then (ms ++ [(i, j)], mlen) else (ms, mlen)).1
            (if mlen < (if i = 0 ∨ j = 0 then 1 else last + 1)
              then ([(i, j)], (if i = 0 ∨ j = 0 then 1 else last + 1))
              else if (if i = 0 ∨ j = 0 then 1 else last + 1) = mlen
                then (ms ++ [(i, j)], mlen) else (ms, mlen)).2
            old hys' hlen' hcol'
            (by
              rcases hold with h0 | hold'
              · exact Or.inl h0
              · right; right
                rw [show j + 1 - 1 = j by omega]
                exact hold')
            hinv'
        refine ⟨(if i = 0 ∨ j = 0 then 1 else last + 1) :: colOut',
          msOut, mlenOut, lastOut, ?_, by simpa using hlen2, ?_, hinv2⟩
        · rw [lcsInner_cons_eq hxy i j old last mlen col' ys' ms
            (if i = 0 ∨ j = 0 then 1 else last + 1) _ rfl rfl]
          rw [heq]
        · intro k hk
          cases k with
          | zero => simpa using hv
          | succ k =>
              have h := hget2 k (by simpa using Nat.lt_of_succ_lt_succ hk)
              rw [show (j + 1) + k = j + (k + 1) by omega] at h
              simpa using h
      · have hv0 : cellVal a b i j = 0 := cellVal_mismatch hx hy hxy
        have hinv' := INV_extend_miss hj hinv hv0
        obtain ⟨colOut', msOut, mlenOut, lastOut, heq, hlen2, hget2, hinv2⟩ :=
          ih (j + 1) col' ms mlen old hys' hlen' hcol'
            (by
              rcases hold with h0 | hold'
              · exact Or.inl h0
              · right; right
                rw [show j + 1 - 1 = j by omega]
                exact hold')
            hinv'
        refine ⟨0 :: colOut', msOut, mlenOut, lastOut, ?_, by simpa using hlen2, ?_, hinv2⟩
        · rw [lcsInner_cons_ne hxy i j old last mlen col' ys' ms, heq]
        · intro k hk
          cases k with
          | zero => simpa using hv0.symm
          | succ k =>
              have h := hget2 k (by simpa using Nat.lt_of_succ_lt_succ hk)
              rw [show (j + 1) + k = j + (k + 1) by omega] at h
              simpa using h

/-- Unfolding the outer loop one row. -/
lemma lcsLoop_cons (b : List α) (x : α) (rest : List α) (i : ℕ) (col : List ℕ)
    (st : List (ℕ × ℕ) × ℕ × ℕ) :
    lcsLoop b (x :: rest) i col st
      = lcsLoop b rest (i + 1) (lcsInner x i col b 0 st).1 (lcsInner x i col b 0 st).2 := by
  simp only [lcsLoop]

/-- The outer loop establishes the invariant over the whole grid. -/
lemma lcsLoop_spec (a b : List α) :
    ∀ (rest : List α) (i : ℕ) (col : List ℕ) (ms : List (ℕ × ℕ)) (mlen last : ℕ),
      rest = a.drop i → i ≤ a.length →
      col.length = b.length →
      (i = 0 ∨ ∀ k, k < b.length → col.get? k = some (cellVal a b (i - 1) k)) →
      INV a b i 0 ms mlen →
      ∃ msOut mlenOut,
        lcsLoop b rest i col (ms, mlen, last) = (msOut, mlenOut) ∧
        INV a b a.length 0 msOut mlenOut := by
  intro rest
  induction rest with
  | nil =>
      intro i col ms mlen last hrest hile hlen hcol hinv
      have hieq : i = a.length := by
        have := List.drop_eq_nil_iff.mp hrest.symm
        omega
      subst hieq
      exact ⟨ms, mlen, rfl, hinv⟩
  | cons x rest' ih =>
      intro i col ms mlen last hrest hile hlen hcol hinv
      have hia : i < a.length := by
        by_contra hia
        push_neg at hia
        rw [List.drop_eq_nil_of_le hia] at hrest
        simp at hrest
      have hx : a.get? i = some x := by
        have h := List.head?_drop a i
        rw [← hrest] at h
        simpa [List.get?_eq_getElem?] using h.symm
      have hrest' : rest' = a.drop (i + 1) := by
        have h := List.tail_drop a i
        rw [← hrest] at h
        simpa using h
      obtain ⟨colOut, msOut, mlenOut, lastOut, heq, hlen2, hget2, hinv2⟩ :=
        lcsInner_spec a b x i hx b 0 col ms mlen last (by simp) hlen
          (by
            rcases hcol with h0 | hcol
            · exact Or.inl h0
            · right
              intro k hk
              simpa using hcol k hk)
          (Or.inr (Or.inl rfl)) hinv
      rw [lcsLoop_cons, heq]
      exact ih (i + 1) colOut msOut mlenOut lastOut hrest' (by omega) hlen2
        (by
          right
          intro k hk
          simpa using hget2 k hk)
        (INV_congr (fun p q => inC_row_end b i p q) hinv2)

lemma inC_full (b : List α) (L1 p q : ℕ) :
    inC b L1 0 p q ↔ p < L1 ∧ q < b.length := by
  unfold inC; omega

/-- The state computed by `lcsubData` satisfies the grid invariant. -/
lemma lcsubData_spec (a b : List α) :
    ∃ ms mlen, lcsubData a b = (ms, mlen) ∧
      (∀ p q, p < a.length → q < b.length → cellVal a b p q ≤ mlen) ∧
      (mlen = 0 ∨ ∃ p q, p < a.length ∧ q < b.length ∧ cellVal a b p q = mlen) ∧
      (∀ p q, (p, q) ∈ ms ↔
        (p < a.length ∧ q < b.length ∧ cellVal a b p q = mlen ∧ 1 ≤ mlen)) := by
  have hinv0 : INV a b 0 0 [] 0 := by
    refine ⟨?_, Or.inl rfl, ?_⟩
    · intro p q hc
      unfold inC at hc
      omega
    · intro p q
      simp only [List.not_mem_nil, false_iff]
      rintro ⟨hc, _⟩
      unfold inC at hc
      omega
  obtain ⟨msOut, mlenOut, heq, hinv⟩ :=
    lcsLoop_spec a b a 0 (List.range b.length) [] 0 0 (by simp) (by simp)
      (by simp) (Or.inl rfl) hinv0
  obtain ⟨h1, h2, h3⟩ := hinv
  refine ⟨msOut, mlenOut, heq, ?_, ?_, ?_⟩
  · intro p q hp hq
    exact h1 p q ((inC_full b a.length p q).mpr ⟨hp, hq⟩)
  · rcases h2 with h2 | ⟨p, q, hc, hv⟩
    · left; exact h2
    · right
      obtain ⟨hp, hq⟩ := (inC_full b a.length p q).mp hc
      exact ⟨p, q, hp, hq, hv⟩
  · intro p q
    rw [h3 p q, inC_full]
    tauto

/-! ## From cells to common substrings and back -/

lemma suffix_drop {s u : List α} (h : s <:+ u) :
    u.drop (u.length - s.length) = s := by
  obtain ⟨w, rfl⟩ := h
  rw [List.length_append, Nat.add_sub_cancel, List.drop_left]

/-- Every non-empty common substring yields a grid cell whose value
dominates its length, at the positions where the substring ends. -/
lemma infix_to_cell {a b s : List α} (hs : s ≠ []) (ha : s <:+: a) (hb : s <:+: b) :
    ∃ p q, p < a.length ∧ q < b.length ∧ s.length ≤ cellVal a b p q ∧
      s <:+ a.take (p + 1) ∧ s <:+ b.take (q + 1) := by
  obtain ⟨u, w, hu⟩ := ha
  obtain ⟨u', w', hu'⟩ := hb
  have hslen : 1 ≤ s.length := List.length_pos.mpr hs
  have hta : a.take (u.length + s.length) = u ++ s := by
    rw [← hu, show u.length + s.length = (u ++ s).length by simp, List.take_left]
  have htb : b.take (u'.length + s.length) = u' ++ s := by
    rw [← hu', show u'.length + s.length = (u' ++ s).length by simp, List.take_left]
  have hlena : u.length + s.length ≤ a.length := by
    rw [← hu]; simp
  have hlenb : u'.length + s.length ≤ b.length := by
    rw [← hu']; simp
  refine ⟨u.length + s.length - 1, u'.length + s.length - 1, by omega, by omega, ?_, ?_, ?_⟩
  · unfold cellVal
    rw [show u.length + s.length - 1 + 1 = u.length + s.length by omega,
      show u'.length + s.length - 1 + 1 = u'.length + s.length by omega, hta, htb]
    exact suffix_le_lcsuf (List.suffix_append u s) (List.suffix_append u' s)
  · rw [show u.length + s.length - 1 + 1 = u.length + s.length by omega, hta]
    exact List.suffix_append u s
  · rw [show u'.length + s.length - 1 + 1 = u'.length + s.length by omega, htb]
    exact List.suffix_append u' s

/-- Every cell value bounds a common substring: the common suffix of
the two prefixes ending at the cell. -/
lemma cell_to_common {a b : List α} {p q m : ℕ} (hp : p < a.length) (hq : q < b.length)
    (hm : m ≤ cellVal a b p q) :
    (a.take (p + 1)).drop (p + 1 - m) = (b.take (q + 1)).drop (q + 1 - m) ∧
      ((a.take (p + 1)).drop (p + 1 - m)).length = m ∧
      (a.take (p + 1)).drop (p + 1 - m) <:+: a ∧
      (a.take (p + 1)).drop (p + 1 - m) <:+: b := by
  have hla : (a.take (p + 1)).length = p + 1 := by rw [List.length_take]; omega
  have hlb : (b.take (q + 1)).length = q + 1 := by rw [List.length_take]; omega
  have hmp : m ≤ p + 1 := le_trans hm (cellVal_le_i ..)
  have hmq : m ≤ q + 1 := le_trans hm (cellVal_le_j ..)
  have hm' : m ≤ lcsuf (a.take (p + 1)) (b.take (q + 1)) := hm
  have heq : (a.take (p + 1)).drop (p + 1 - m) = (b.take (q + 1)).drop (q + 1 - m) := by
    have h := lcsuf_drop_eq hm'
    rwa [hla, hlb] at h
  refine ⟨heq, ?_, ?_, ?_⟩
  · rw [List.length_drop, hla]; omega
  · refine ⟨(a.take (p + 1)).take (p + 1 - m), a.drop (p + 1), ?_⟩
    rw [List.take_append_drop, List.take_append_drop]
  · rw [heq]
    refine ⟨(b.take (q + 1)).take (q + 1 - m), b.drop (q + 1), ?_⟩
    rw [List.take_append_drop, List.take_append_drop]

/-- An occurrence pair of a length-`m` common block yields a cell of
value at least `m` at the block's end positions. -/
lemma occurrence_to_cell {a b : List α} {pS qS m : ℕ} (hm : 1 ≤ m)
    (hpa : pS + m ≤ a.length) (hqb : qS + m ≤ b.length)
    (hext : (a.drop pS).take m = (b.drop qS).take m) :
    pS + m - 1 < a.length ∧ qS + m - 1 < b.length ∧
      m ≤ cellVal a b (pS + m - 1) (qS + m - 1) := by
  have hta : a.take (pS + m) = a.take pS ++ (a.drop pS).take m := List.take_add ..
  have htb : b.take (qS + m) = b.take qS ++ (b.drop qS).take m := List.take_add ..
  have hsa : (a.drop pS).take m <:+ a.take (pS + m) := by
    rw [hta]; exact List.suffix_append ..
  have hsb : (a.drop pS).take m <:+ b.take (qS + m) := by
    rw [htb, hext]; exact List.suffix_append ..
  have hlsl : ((a.drop pS).take m).length = m := by
    rw [List.length_take, List.length_drop]; omega
  refine ⟨by omega, by omega, ?_⟩
  unfold cellVal
  rw [show pS + m - 1 + 1 = pS + m by omega, show qS + m - 1 + 1 = qS + m by omega]
  have h := suffix_le_lcsuf hsa hsb
  rwa [hlsl] at h

/-! ## C4 -/

/-- C4: `lcsubstrings` returns exactly the distinct common contiguous
substrings of maximum length; with `positions=True` it returns the
maximum length together with the start-offset pairs of all the
occurrences of that length; on the documented examples it returns
`{"dent"}` and `(4, [(2, 0)])`; and when the sequences share no
element it returns the empty set, resp. `(0, [])`. -/
theorem C4_lcsubstrings_max_common (seq1 seq2 : List α) :
    ((∃ x, x ∈ seq1 ∧ x ∈ seq2) →
        (∀ s, s ∈ lcsubstrings seq1 seq2 ↔
          (s <:+: seq1 ∧ s <:+: seq2 ∧
            ∀ t, t <:+: seq1 → t <:+: seq2 → t.length ≤ s.length)) ∧
        (∃ s, s <:+: seq1 ∧ s <:+: seq2 ∧ s.length = (lcsubstringsPos seq1 seq2).1) ∧
        (∀ t, t <:+: seq1 → t <:+: seq2 →
          t.length ≤ (lcsubstringsPos seq1 seq2).1) ∧
        (∀ pq : ℕ × ℕ, pq ∈ (lcsubstringsPos seq1 seq2).2 ↔
          (pq.1 + (lcsubstringsPos seq1 seq2).1 ≤ seq1.length ∧
            pq.2 + (lcsubstringsPos seq1 seq2).1 ≤ seq2.length ∧
            (seq1.drop pq.1).take (lcsubstringsPos seq1 seq2).1
              = (seq2.drop pq.2).take (lcsubstringsPos seq1 seq2).1))) ∧
      ((¬ ∃ x, x ∈ seq1 ∧ x ∈ seq2) →
        lcsubstrings seq1 seq2 = ∅ ∧ lcsubstringsPos seq1 seq2 = (0, [])) ∧
      lcsubstrings ['s', 'e', 'd', 'e', 'n', 't', 'a', 'r'] ['d', 'e', 'n', 't', 'i', 's', 't']
        = {['d', 'e', 'n', 't']} ∧
      lcsubstringsPos ['s', 'e', 'd', 'e', 'n', 't', 'a', 'r'] ['d', 'e', 'n', 't', 'i', 's', 't']
        = (4, [(2, 0)]) := by
  obtain ⟨ms, mlen, hdata, G1, G2, G3⟩ := lcsubData_spec seq1 seq2
  have hsetdef : lcsubstrings seq1 seq2
      = (ms.map fun p => ((seq1.take (p.1 + 1)).drop (p.1 + 1 - mlen))).toFinset := by
    unfold lcsubstrings
    rw [hdata]
  have hposdef : lcsubstringsPos seq1 seq2
      = (mlen, ms.map fun p => (p.1 + 1 - mlen, p.2 + 1 - mlen)) := by
    unfold lcsubstringsPos
    rw [hdata]
  have maxBound : ∀ t, t <:+: seq1 → t <:+: seq2 → t.length ≤ mlen := by
    intro t ht1 ht2
    rcases eq_or_ne t [] with rfl | htne
    · simp
    · obtain ⟨p, q, hp, hq, hcell, _, _⟩ := infix_to_cell htne ht1 ht2
      exact le_trans hcell (G1 p q hp hq)
  refine ⟨?_, ?_, by decide, by decide⟩
  · rintro ⟨x, hx1, hx2⟩
    have hxinf1 : [x] <:+: seq1 := by
      obtain ⟨u, v, rfl⟩ := List.append_of_mem hx1
      exact ⟨u, v, by simp⟩
    have hxinf2 : [x] <:+: seq2 := by
      obtain ⟨u, v, rfl⟩ := List.append_of_mem hx2
      exact ⟨u, v, by simp⟩
    have hm1 : 1 ≤ mlen := by simpa using maxBound [x] hxinf1 hxinf2
    have hattain : ∃ s, s <:+: seq1 ∧ s <:+: seq2 ∧ s.length = mlen := by
      rcases G2 with h0 | ⟨p, q, hp, hq, hv⟩
      · omega
      · obtain ⟨heq, hlen, hia, hib⟩ := cell_to_common hp hq (le_of_eq hv.symm)
        exact ⟨_, hia, hib, hlen⟩
    refine ⟨?_, ?_, ?_, ?_⟩
    · intro s
      rw [hsetdef, List.mem_toFinset, List.mem_map]
      constructor
      · rintro ⟨⟨p, q⟩, hmem, rfl⟩
        obtain ⟨hp, hq, hcv, _⟩ := (G3 p q).mp hmem
        obtain ⟨heq, hlen, hia, hib⟩ := cell_to_common hp hq (le_of_eq hcv.symm)
        refine ⟨hia, hib, ?_⟩
        intro t ht1 ht2
        rw [hlen]
        exact maxBound t ht1 ht2
      · rintro ⟨hs1, hs2, hmax⟩
        have hslen : s.length = mlen := by
          refine le_antisymm (maxBound s hs1 hs2) ?_
          obtain ⟨s0, h01, h02, h0len⟩ := hattain
          rw [← h0len]
          exact hmax s0 h01 h02
        have hsne : s ≠ [] := by
          intro h
          rw [h] at hslen
          simp at hslen
          omega
        obtain ⟨p, q, hp, hq, hcell, hsufa, _⟩ := infix_to_cell hsne hs1 hs2
        have hcv : cellVal seq1 seq2 p q = mlen :=
          le_antisymm (G1 p q hp hq) (by rw [← hslen]; exact hcell)
        refine ⟨(p, q), (G3 p q).mpr ⟨hp, hq, hcv, hm1⟩, ?_⟩
        have hlu : (seq1.take (p + 1)).length = p + 1 := by
          rw [List.length_take]; omega
        have h := suffix_drop hsufa
        rwa [hlu, hslen] at h
    · rw [hposdef]
      exact hattain
    · rw [hposdef]
      exact maxBound
    · intro pq
      rw [hposdef]
      dsimp only
      rw [List.mem_map]
      constructor
      · rintro ⟨⟨p, q⟩, hmem, rfl⟩
        obtain ⟨hp, hq, hcv, _⟩ := (G3 p q).mp hmem
        have hmp : mlen ≤ p + 1 := le_trans (le_of_eq hcv.symm) (cellVal_le_i ..)
        have hmq : mlen ≤ q + 1 := le_trans (le_of_eq hcv.symm) (cellVal_le_j ..)
        obtain ⟨heq, hlen, _, _⟩ := cell_to_common hp hq (le_of_eq hcv.symm)
        dsimp only
        refine ⟨by omega, by omega, ?_⟩
        have ha' : (seq1.drop (p + 1 - mlen)).take mlen
            = (seq1.take (p + 1)).drop (p + 1 - mlen) := by
          rw [List.drop_take]
          congr 1
          omega
        have hb' : (seq2.drop (q + 1 - mlen)).take mlen
            = (seq2.take (q + 1)).drop (q + 1 - mlen) := by
          rw [List.drop_take]
          congr 1
          omega
        rw [ha', hb', heq]
      · obtain ⟨pS, qS⟩ := pq
        dsimp only
        rintro ⟨h1, h2, hext⟩
        obtain ⟨hplt, hqlt, hcell⟩ := occurrence_to_cell hm1 h1 h2 hext
        have hcv : cellVal seq1 seq2 (pS + mlen - 1) (qS + mlen - 1) = mlen :=
          le_antisymm (G1 _ _ hplt hqlt) hcell
        refine ⟨(pS + mlen - 1, qS + mlen - 1),
          (G3 _ _).mpr ⟨hplt, hqlt, hcv, hm1⟩, ?_⟩
        have hpeq : pS + mlen - 1 + 1 - mlen = pS := by omega
        have hqeq : qS + mlen - 1 + 1 - mlen = qS := by omega
        rw [hpeq, hqeq]
  · intro hno
    have hm0 : mlen = 0 := by
      by_contra hm0
      rcases G2 with h0 | ⟨p, q, hp, hq, hv⟩
      · exact hm0 h0
      · obtain ⟨heq, hlen, hia, hib⟩ := cell_to_common hp hq (le_of_eq hv.symm)
        have hne : (seq1.take (p + 1)).drop (p + 1 - mlen) ≠ [] := by
          intro h
          rw [h] at hlen
          simp at hlen
          exact hm0 hlen.symm
        obtain ⟨z, hz⟩ := List.exists_mem_of_ne_nil _ hne
        exact hno ⟨z, hia.subset hz, hib.subset hz⟩
    have hms : ms = [] := by
      rw [List.eq_nil_iff_forall_not_mem]
      rintro ⟨p, q⟩ hmem
      obtain ⟨_, _, _, h1⟩ := (G3 p q).mp hmem
      omega
    subst hms
    constructor
    · rw [hsetdef]; simp
    · rw [hposdef, hm0]; simp

theorem C4_lcsubstrings_max_common_witness :
    ((['d', 'e', 'n', 't'] : List Char) <:+: ['s', 'e', 'd', 'e', 'n', 't', 'a', 'r'] ∧
        (['d', 'e', 'n', 't'] : List Char) <:+: ['d', 'e', 'n', 't', 'i', 's', 't'] ∧
        ∀ t : List Char, t <:+: ['s', 'e', 'd', 'e', 'n', 't', 'a', 'r'] →
          t <:+: ['d', 'e', 'n', 't', 'i', 's', 't'] →
          t.length ≤ (['d', 'e', 'n', 't'] : List Char).length) ∧
      lcsubstrings (['a', 'b'] : List Char) ['x', 'y'] = ∅ :=
  ⟨((C4_lcsubstrings_max_common ['s', 'e', 'd', 'e', 'n', 't', 'a', 'r']
        ['d', 'e', 'n', 't', 'i', 's', 't']).1 ⟨'d', by decide, by decide⟩).1
      ['d', 'e', 'n', 't'] |>.mp (by decide),
   ((C4_lcsubstrings_max_common ['a', 'b'] ['x', 'y']).2.1 (by decide)).1⟩

end Distance
